import Mathlib

/-!
Verification development for the siksamitra script-and-prosody engine.

The JavaScript sources are embedded shallowly:

* text is a `List Char` (every codepoint used by the engine lies in the
  basic multilingual plane, so JavaScript UTF-16 indexing coincides with
  codepoint indexing);
* phonetic units (the return values of the classifier) are `String`;
* the character tables of class SanskritRules (src/js/sanskrit_rules.js)
  and of `devanagariToIAST` and `iastToDevanagari` (src/editor-quill.js)
  are transcribed literally, codepoint for codepoint;
* index-driven while loops are embedded as fuel recursion, where the fuel
  passed by each wrapper (length of the text plus one) exceeds the number
  of loop iterations, since every iteration of every loop advances the
  index by at least one.
-/

/-- The character class of the JavaScript regular expression white space
escape, used by the source through text[i].match against that class. -/
def jsWhitespace (c : Char) : Bool :=
  [' ', '\t', '\n', '\u000b', '\u000c', '\r', ' ', ' ',
   ' ', ' ', ' ', ' ', ' ', ' ', ' ',
   ' ', ' ', ' ', ' ', ' ', ' ', ' ',
   ' ', '　', '﻿'].contains c

/-! Character tables of class SanskritRules (src/js/sanskrit_rules.js,
lines 9 to 34).  The diacritic letters are the precomposed codepoints used
by the source file. -/

def SKIP_CONSONANTS : List String :=
  ["ṅ", "ñ", "ṇ", "n", "m", "r", "ś", "ṣ", "s"]

def ALL_CONSONANTS : List String :=
  ["k", "kh", "g", "gh", "ṅ",
   "c", "ch", "j", "jh", "ñ",
   "ṭ", "ṭh", "ḍ", "ḍh", "ṇ",
   "t", "th", "d", "dh", "n",
   "p", "ph", "b", "bh", "m",
   "y", "r", "l", "v",
   "ś", "ṣ", "s", "h",
   "ḥ", "ṁ", "ṃ"]

def SHORT_VOWELS : List String := ["a", "i", "u", "ṛ", "ḷ"]

def LONG_VOWELS : List String :=
  ["ā", "ī", "ū", "ṝ", "ḹ", "e", "ai", "o", "au"]

def VOWELS : List String := SHORT_VOWELS ++ LONG_VOWELS

def SVARA_MARKS : List Char := ['̱', '̍', '̎', 'ˎ']

def TWO_CHAR_CONSONANTS : List String :=
  ["kh", "gh", "ch", "jh", "ṭh", "ḍh", "th", "dh", "ph", "bh"]

/-- SanskritRules.isConsonant (sanskrit_rules.js lines 40 to 59): the
two-character probe is consulted before the single character, and only the
aspirated digraphs count as two-character consonants. -/
def isConsonant (text : List Char) (pos : Nat) : Option String :=
  if text.length ≤ pos then none
  else
    let twoChar := String.mk ((text.drop pos).take 2)
    if pos + 1 < text.length ∧ TWO_CHAR_CONSONANTS.contains twoChar then
      some twoChar
    else
      let oneChar := String.mk ((text.drop pos).take 1)
      if ALL_CONSONANTS.contains oneChar then some oneChar else none

/-- SanskritRules.isVowel (sanskrit_rules.js lines 64 to 81). -/
def isVowel (text : List Char) (pos : Nat) : Option String :=
  if text.length ≤ pos then none
  else
    let twoChar := String.mk ((text.drop pos).take 2)
    if pos + 1 < text.length ∧ VOWELS.contains twoChar then
      some twoChar
    else
      let oneChar := String.mk ((text.drop pos).take 1)
      if VOWELS.contains oneChar then some oneChar else none

/-- SanskritRules.isSvaraMark (sanskrit_rules.js lines 86 to 88). -/
def isSvaraMark (c : Char) : Bool := SVARA_MARKS.contains c

/-- Global replacement of a literal pattern, the semantics of the
JavaScript call of text.replace with a global literal regular expression:
leftmost match, non-overlapping, the scan resumes after the replacement.
The fuel recursion consumes at least one character per step, so the fuel
passed by the wrapper (length of the text) suffices. -/
def replaceAllAux (pat rep : List Char) : Nat → List Char → List Char
  | 0, s => s
  | _ + 1, [] => []
  | fuel + 1, c :: rest =>
    if pat = (c :: rest).take pat.length then
      rep ++ replaceAllAux pat rep fuel (rest.drop (pat.length - 1))
    else
      c :: replaceAllAux pat rep fuel rest

/-- The wrapper of replaceAllAux supplying sufficient fuel. -/
def replaceAll (pat rep s : List Char) : List Char :=
  replaceAllAux pat rep s.length s

/-- SanskritProcessor.preProcessRawText (sanskrit_rules.js lines 100 to
122): the fourteen global replacements, in source order. -/
def preProcessRawText (text : List Char) : List Char :=
  let t1 := replaceAll ['॑'] ['̍'] text
  let t2 := replaceAll ['॒'] ['̱'] t1
  let t3 := replaceAll ['̲'] ['̱'] t2
  let t4 := replaceAll ['̠'] ['̱'] t3
  let t5 := replaceAll ['̡'] ['̱'] t4
  let t6 := replaceAll ['᳚'] ['̎'] t5
  let t7 := replaceAll ['́'] ['̎'] t6
  let t8 := replaceAll ['ṃ'] ['ṁ'] t7
  let t9 := replaceAll ['ō'] ['o'] t8
  let t10 := replaceAll ['ē'] ['e'] t9
  let t11 := replaceAll ['(', 'g', ')', 'm'] ['ṁ'] t10
  let t12 := replaceAll ['(', 'g', ')', 'ṁ'] ['ṁ'] t11
  let t13 := replaceAll ['(', 'g', '̱', ')', 'ṁ'] ['ṁ'] t12
  replaceAll ['(', 'g', '̱', ')', 'm'] ['ṁ'] t13

/-- Result record of findPreviousVowel: the fields vowel, blocked and
position of the object literal returned by the source. -/
structure PrevVowel where
  vowel : String
  blocked : Bool
  position : Int
deriving DecidableEq, Repr

/-- Loop body of SanskritProcessor.findPreviousVowel (sanskrit_rules.js
lines 128 to 160).  The argument is the current index plus one, so the
zero case is the exit of the downward while loop.  The index is always
below the length of the text when the function is called by
findHoldingPosition, so the none branch of the character read is
unreachable there; it is mapped to the not-found result. -/
def findPreviousVowelAux (text : List Char) (blockAtSpace : Bool) :
    Nat → PrevVowel
  | 0 => ⟨"", false, -1⟩
  | j + 1 =>
    match text.get? j with
    | none => ⟨"", false, -1⟩
    | some c =>
      if c = '|' then findPreviousVowelAux text blockAtSpace j
      else if isSvaraMark c then findPreviousVowelAux text blockAtSpace j
      else if jsWhitespace c ∧ blockAtSpace then ⟨"", true, -1⟩
      else if c = 'ṁ' ∨ c = 'ṃ' ∨ c = 'ḥ' then
        ⟨String.mk [c], false, (j : Int)⟩
      else
        match isVowel text j with
        | some vowel => ⟨vowel, false, (j : Int)⟩
        | none => findPreviousVowelAux text blockAtSpace j

/-- SanskritProcessor.findPreviousVowel: the scan starts at pos - 1. -/
def findPreviousVowel (text : List Char) (pos : Nat)
    (blockAtSpace : Bool := true) : PrevVowel :=
  findPreviousVowelAux text blockAtSpace pos

/-- Loop of SanskritProcessor.findSamyuktaLength (sanskrit_rules.js lines
165 to 189), as fuel recursion on the upward index i. -/
def findSamyuktaLengthAux (text : List Char) (countMarks : Bool) :
    Nat → Nat → Nat
  | 0, _ => 0
  | fuel + 1, i =>
    match text.get? i with
    | none => 0
    | some c =>
      if jsWhitespace c ∨ c = '\n' then
        findSamyuktaLengthAux text countMarks fuel (i + 1)
      else if c = '|' then
        findSamyuktaLengthAux text countMarks fuel (i + 1)
      else if countMarks ∧ isSvaraMark c then
        findSamyuktaLengthAux text countMarks fuel (i + 1)
      else
        match isConsonant text i with
        | some consonant =>
          1 + findSamyuktaLengthAux text countMarks fuel (i + consonant.length)
        | none => 0

/-- SanskritProcessor.findSamyuktaLength. -/
def findSamyuktaLength (text : List Char) (pos : Nat)
    (countMarks : Bool := true) : Nat :=
  findSamyuktaLengthAux text countMarks (text.length + 1) pos

/-- Result record of findHoldingPosition: fields position, length, type
and the optional endPos of the object literals returned by the source. -/
structure Holding where
  position : Nat
  length : Nat
  type : String
  endPos : Option Nat
deriving DecidableEq, Repr

/-- The two identical inner while loops of findHoldingPosition
(sanskrit_rules.js lines 255 to 263 and 274 to 282) that scan to the end
of the samyukta after the cross-space placement was decided. -/
def scanSamyuktaEnd (text : List Char) : Nat → Nat → Nat
  | 0, i => i
  | fuel + 1, i =>
    match text.get? i with
    | none => i
    | some c =>
      if isSvaraMark c then scanSamyuktaEnd text fuel (i + 1)
      else
        match isConsonant text i with
        | some nextCons => scanSamyuktaEnd text fuel (i + nextCons.length)
        | none => i

/-- The while loop of findHoldingPosition that advances the final holding
position over SKIP_CONSONANTS (sanskrit_rules.js lines 295 to 300). -/
def skipSkipConsonants (text : List Char) : Nat → Nat → Nat
  | 0, hp => hp
  | fuel + 1, hp =>
    match isConsonant text hp with
    | none => hp
    | some currentCons =>
      if SKIP_CONSONANTS.contains currentCons then
        let hp2 := hp + currentCons.length
        if text.length ≤ hp2 then hp2
        else skipSkipConsonants text fuel hp2
      else hp

/-- The code after the main loop of findHoldingPosition (sanskrit_rules.js
lines 294 to 311): skip over SKIP_CONSONANTS, then return the consonant
unit found there, or the empty holding. -/
def fhpFinish (text : List Char) (holdingType : String) (pos : Nat) :
    Holding :=
  let hp := skipSkipConsonants text (text.length + 1) pos
  match isConsonant text hp with
  | some currentCons => ⟨hp, currentCons.length, holdingType, none⟩
  | none => ⟨0, 0, "", none⟩

/-- The main while loop of findHoldingPosition (sanskrit_rules.js lines
226 to 292).  The position of the first consonant of the samyukta is never
changed before a space is crossed (the source updates it only inside the
two branches that return), so the running holding position parameter of
the source is the constant pos and the last consonant before the space is
always read at pos; both are nevertheless threaded faithfully.  The -1
initial value of the position of the last consonant before the space is
observable only together with a null consonant, which never compares equal
to a consonant string, so it is embedded as a joint optional pair. -/
def fhpLoop (text : List Char) (holdingType : String) (pos : Nat) :
    Nat → Nat → Bool → Option (String × Nat) → Holding
  | 0, _, _, _ => ⟨0, 0, "", none⟩
  | fuel + 1, i, passedOverSpace, lastConsBeforeSpace =>
    match text.get? i with
    | none => fhpFinish text holdingType pos
    | some c =>
      if jsWhitespace c ∨ c = '\n' then
        let lcbs :=
          if ¬passedOverSpace then
            match isConsonant text pos with
            | some cons => some (cons, pos)
            | none => lastConsBeforeSpace
          else lastConsBeforeSpace
        fhpLoop text holdingType pos fuel (i + 1) true lcbs
      else if c = '|' then
        fhpLoop text holdingType pos fuel (i + 1) passedOverSpace
          lastConsBeforeSpace
      else if isSvaraMark c then
        fhpLoop text holdingType pos fuel (i + 1) passedOverSpace
          lastConsBeforeSpace
      else
        match isConsonant text i with
        | none => fhpFinish text holdingType pos
        | some cons =>
          if passedOverSpace then
            match lastConsBeforeSpace with
            | some (lastCons, lastPos) =>
              if cons = lastCons then
                ⟨lastPos, lastCons.length, holdingType,
                  some (scanSamyuktaEnd text (text.length + 1)
                    (i + cons.length))⟩
              else
                ⟨i, cons.length, holdingType,
                  some (scanSamyuktaEnd text (text.length + 1)
                    (i + cons.length))⟩
            | none =>
              ⟨i, cons.length, holdingType,
                some (scanSamyuktaEnd text (text.length + 1)
                  (i + cons.length))⟩
          else
            fhpLoop text holdingType pos fuel (i + cons.length)
              passedOverSpace lastConsBeforeSpace

/-- SanskritProcessor.findHoldingPosition (sanskrit_rules.js lines 195 to
312). -/
def findHoldingPosition (text : List Char) (pos : Nat) : Holding :=
  match isConsonant text pos with
  | none => ⟨0, 0, "", none⟩
  | some consonant =>
    if findSamyuktaLength text pos false ≤ 1 then ⟨0, 0, "", none⟩
    else
      let pv := findPreviousVowel text pos
      if pv.vowel = "" then
        if pv.blocked then ⟨pos, consonant.length, "short", none⟩
        else ⟨0, 0, "", none⟩
      else
        let holdingType :=
          if LONG_VOWELS.contains pv.vowel then "long" else "short"
        fhpLoop text holdingType pos (text.length + 1) pos false none

/-- Loop of SanskritProcessor.findAllHoldings (sanskrit_rules.js lines 318
to 352).  The svara-mark branch and the final else branch of the source
both advance the index by one and are merged into the last branch. -/
def findAllHoldingsAux (text : List Char) : Nat → Nat → List Holding
  | 0, _ => []
  | fuel + 1, i =>
    match text.get? i with
    | none => []
    | some c =>
      if c = '|' then findAllHoldingsAux text fuel (i + 1)
      else
        match isConsonant text i with
        | some consonant =>
          let holding := findHoldingPosition text i
          if 0 < holding.position ∧ 0 < holding.length then
            holding ::
              findAllHoldingsAux text fuel
                (match holding.endPos with
                 | some e => e
                 | none => holding.position + holding.length)
          else findAllHoldingsAux text fuel (i + consonant.length)
        | none => findAllHoldingsAux text fuel (i + 1)

/-- SanskritProcessor.findAllHoldings. -/
def findAllHoldings (text : List Char) : List Holding :=
  findAllHoldingsAux text (text.length + 1) 0

/-- Result record of findAllPauses: the fields position and type of the
object literals pushed by the source. -/
structure Pause where
  position : Nat
  type : String
deriving DecidableEq, Repr

/-- The while loops of findAllPauses that advance the probe index over
svara marks (sanskrit_rules.js lines 385 to 387 and 395 to 397). -/
def skipSvaraMarks (text : List Char) : Nat → Nat → Nat
  | 0, i => i
  | fuel + 1, i =>
    match text.get? i with
    | none => i
    | some c =>
      if isSvaraMark c then skipSvaraMarks text fuel (i + 1) else i

/-- Loop of SanskritProcessor.findAllPauses (sanskrit_rules.js lines 361
to 423). -/
def findAllPausesAux (text : List Char) : Nat → Nat → List Pause
  | 0, _ => []
  | fuel + 1, i =>
    match text.get? i with
    | none => []
    | some c =>
      if isSvaraMark c then findAllPausesAux text fuel (i + 1)
      else if i + 2 < text.length ∧ text.get? i = some 'o' ∧
          text.get? (i + 1) = some 'ṁ' ∧ text.get? (i + 2) = some ' ' then
        ⟨i + 3, "short"⟩ :: findAllPausesAux text fuel (i + 3)
      else
        match isVowel text i with
        | some vowel =>
          let nextPos := skipSvaraMarks text (text.length + 1)
            (i + vowel.length)
          if text.get? nextPos = some ' ' then
            let np2 := skipSvaraMarks text (text.length + 1) (nextPos + 1)
            match isVowel text np2 with
            | some nextVowel =>
              (if LONG_VOWELS.contains vowel ∧
                  SHORT_VOWELS.contains nextVowel then
                (⟨np2, "long"⟩ : Pause)
              else ⟨np2, "short"⟩) ::
                findAllPausesAux text fuel (i + vowel.length)
            | none => findAllPausesAux text fuel (i + vowel.length)
          else findAllPausesAux text fuel (i + vowel.length)
        | none => findAllPausesAux text fuel (i + 1)

/-- SanskritProcessor.findAllPauses. -/
def findAllPauses (text : List Char) : List Pause :=
  findAllPausesAux text (text.length + 1) 0

/-! Lookup tables of devanagariToIAST (src/editor-quill.js lines 1020 to
1053), transcribed key by key.  The consonants table of the source also
holds the keys for the ligatures kSa and jNa, but those keys are three
UTF-16 units long while the probe of the source reads exactly two units
(line 1072), so they can never match and are omitted together with the
probe; every reachable consonant lookup is through a single character. -/

def devVowel : Char → Option String
  | 'अ' => some "a"
  | 'आ' => some "ā"
  | 'इ' => some "i"
  | 'ई' => some "ī"
  | 'उ' => some "u"
  | 'ऊ' => some "ū"
  | 'ऋ' => some "ṛ"
  | 'ॠ' => some "ṝ"
  | 'ऌ' => some "ḷ"
  | 'ॡ' => some "ḹ"
  | 'ए' => some "e"
  | 'ऐ' => some "ai"
  | 'ओ' => some "o"
  | 'औ' => some "au"
  | 'ॐ' => some "oṁ"
  | _ => none

def devVowelSign : Char → Option String
  | 'ा' => some "ā"
  | 'ि' => some "i"
  | 'ी' => some "ī"
  | 'ु' => some "u"
  | 'ू' => some "ū"
  | 'ृ' => some "ṛ"
  | 'ॄ' => some "ṝ"
  | 'ॢ' => some "ḷ"
  | 'ॣ' => some "ḹ"
  | 'े' => some "e"
  | 'ै' => some "ai"
  | 'ो' => some "o"
  | 'ौ' => some "au"
  | _ => none

def devConsonant : Char → Option String
  | 'क' => some "k"
  | 'ख' => some "kh"
  | 'ग' => some "g"
  | 'घ' => some "gh"
  | 'ङ' => some "ṅ"
  | 'च' => some "c"
  | 'छ' => some "ch"
  | 'ज' => some "j"
  | 'झ' => some "jh"
  | 'ञ' => some "ñ"
  | 'ट' => some "ṭ"
  | 'ठ' => some "ṭh"
  | 'ड' => some "ḍ"
  | 'ढ' => some "ḍh"
  | 'ण' => some "ṇ"
  | 'त' => some "t"
  | 'थ' => some "th"
  | 'द' => some "d"
  | 'ध' => some "dh"
  | 'न' => some "n"
  | 'प' => some "p"
  | 'फ' => some "ph"
  | 'ब' => some "b"
  | 'भ' => some "bh"
  | 'म' => some "m"
  | 'य' => some "y"
  | 'र' => some "r"
  | 'ल' => some "l"
  | 'व' => some "v"
  | 'श' => some "ś"
  | 'ष' => some "ṣ"
  | 'स' => some "s"
  | 'ह' => some "h"
  | 'ळ' => some "ḷ"
  | _ => none

def devSpecial : Char → Option String
  | 'ं' => some "ṁ"
  | 'ः' => some "ḥ"
  | 'ँ' => some "m̐"
  | 'ऽ' => some "'"
  | '।' => some "|"
  | '॥' => some "||"
  | _ => none

/-- devanagariToIAST (src/editor-quill.js lines 1020 to 1151) as fuel
recursion on the text, with the single-character tail and the
two-or-more-character cases split so that the consonant lookahead on the
following character is explicit: vowels, consonants with their vowel-sign
or virama or inherent-vowel lookahead, standalone vowel signs, specials
other than the virama, the bare virama which emits nothing, and the
pass-through of everything else.  The source checks the om symbol before
the vowels table, emitting the letter o plus the anusvara letter; that is
exactly what the entry for the om symbol in the vowels table emits as
well, so the om branch is behaviorally identical to the vowel branch that
follows it in the source and is folded into it here.  A consonant that
ends the text emits no inherent vowel.  Every step consumes at least one
character, so the fuel passed by the wrapper (length of the text plus
one) exceeds the number of steps. -/
def devanagariToIASTAux : Nat → List Char → List Char
  | 0, _ => []
  | _ + 1, [] => []
  | _ + 1, [c] =>
    match devVowel c with
    | some v => v.data
    | none =>
      match devConsonant c with
      | some k => k.data
      | none =>
        match devVowelSign c with
        | some vs => vs.data
        | none =>
          if c = '्' then []
          else
            match devSpecial c with
            | some s => s.data
            | none => [c]
  | fuel + 1, c :: d :: rest2 =>
    match devVowel c with
    | some v => v.data ++ devanagariToIASTAux fuel (d :: rest2)
    | none =>
      match devConsonant c with
      | some k =>
        k.data ++
          (match devVowelSign d with
           | some vs => vs.data ++ devanagariToIASTAux fuel rest2
           | none =>
             if d = '्' then devanagariToIASTAux fuel rest2
             else 'a' :: devanagariToIASTAux fuel (d :: rest2))
      | none =>
        match devVowelSign c with
        | some vs => vs.data ++ devanagariToIASTAux fuel (d :: rest2)
        | none =>
          if c = '्' then devanagariToIASTAux fuel (d :: rest2)
          else
            match devSpecial c with
            | some s => s.data ++ devanagariToIASTAux fuel (d :: rest2)
            | none => c :: devanagariToIASTAux fuel (d :: rest2)

/-- devanagariToIAST: the wrapper supplying sufficient fuel. -/
def devanagariToIAST (t : List Char) : List Char :=
  devanagariToIASTAux (t.length + 1) t

/-! Lookup tables of iastToDevanagari (src/editor-quill.js lines 1206 to
1294), split by key length; the two-unit keys are consulted before the
one-unit keys exactly as the source scans. -/

def iastVowel1 : Char → Option Char
  | 'a' => some 'अ'
  | 'ā' => some 'आ'
  | 'i' => some 'इ'
  | 'ī' => some 'ई'
  | 'u' => some 'उ'
  | 'ū' => some 'ऊ'
  | 'ṛ' => some 'ऋ'
  | 'ṝ' => some 'ॠ'
  | 'ḷ' => some 'ऌ'
  | 'ḹ' => some 'ॡ'
  | 'e' => some 'ए'
  | 'o' => some 'ओ'
  | 'ṁ' => some 'ं'
  | _ => none

def iastVowel2 (a b : Char) : Option Char :=
  if a = 'a' ∧ b = 'i' then some 'ऐ'
  else if a = 'a' ∧ b = 'u' then some 'औ'
  else if a = 'o' ∧ b = 'ṁ' then some 'ॐ'
  else none

def iastVowelSign1 : Char → Option Char
  | 'ā' => some 'ा'
  | 'i' => some 'ि'
  | 'ī' => some 'ी'
  | 'u' => some 'ु'
  | 'ū' => some 'ू'
  | 'ṛ' => some 'ृ'
  | 'ṝ' => some 'ॄ'
  | 'ḷ' => some 'ॢ'
  | 'ḹ' => some 'ॣ'
  | 'e' => some 'े'
  | 'o' => some 'ो'
  | _ => none

def iastVowelSign2 (a b : Char) : Option Char :=
  if a = 'a' ∧ b = 'i' then some 'ै'
  else if a = 'a' ∧ b = 'u' then some 'ौ'
  else none

def iastConsonant1 : Char → Option Char
  | 'k' => some 'क'
  | 'g' => some 'ग'
  | 'ṅ' => some 'ङ'
  | 'c' => some 'च'
  | 'j' => some 'ज'
  | 'ñ' => some 'ञ'
  | 'ṭ' => some 'ट'
  | 'ḍ' => some 'ड'
  | 'ṇ' => some 'ण'
  | 't' => some 'त'
  | 'd' => some 'द'
  | 'n' => some 'न'
  | 'p' => some 'प'
  | 'b' => some 'ब'
  | 'm' => some 'म'
  | 'y' => some 'य'
  | 'r' => some 'र'
  | 'l' => some 'ल'
  | 'v' => some 'व'
  | 'ś' => some 'श'
  | 'ṣ' => some 'ष'
  | 's' => some 'स'
  | 'h' => some 'ह'
  | _ => none

def iastConsonant2 (a b : Char) : Option Char :=
  if a = 'k' ∧ b = 'h' then some 'ख'
  else if a = 'g' ∧ b = 'h' then some 'घ'
  else if a = 'c' ∧ b = 'h' then some 'छ'
  else if a = 'j' ∧ b = 'h' then some 'झ'
  else if a = 'ṭ' ∧ b = 'h' then some 'ठ'
  else if a = 'ḍ' ∧ b = 'h' then some 'ढ'
  else if a = 't' ∧ b = 'h' then some 'थ'
  else if a = 'd' ∧ b = 'h' then some 'ध'
  else if a = 'p' ∧ b = 'h' then some 'फ'
  else if a = 'b' ∧ b = 'h' then some 'भ'
  else none

def iastSpecial : Char → Option Char
  | 'ṁ' => some 'ं'
  | 'ṃ' => some 'ं'
  | 'ḥ' => some 'ः'
  | '\u0027' => some 'ऽ'
  | '0' => some '०'
  | '1' => some '१'
  | '2' => some '२'
  | '3' => some '३'
  | '4' => some '४'
  | '5' => some '५'
  | '6' => some '६'
  | '7' => some '७'
  | '8' => some '८'
  | '9' => some '९'
  | _ => none

/-- The helper isWordBoundary of iastToDevanagari (src/editor-quill.js
lines 1308 to 1315); the argument none is the undefined character read
past the end of the text, for which the source answers true. -/
def isWordBoundaryIAST : Option Char → Bool
  | none => true
  | some c =>
    jsWhitespace c ∨ c = ' ' ∨ c = ' ' ∨ c = ' ' ∨
      ['.', ',', ';', ':', '!', '?', '-', '—', '(', ')', '|', '।', '॥'].contains c

/-- The helper isConsonantAhead of iastToDevanagari (src/editor-quill.js
lines 1297 to 1305), reading the remaining text: a two-unit consonant key
is probed first, then a one-unit key.  When exactly one character remains
the two-unit probe of the source degenerates to that single character and
is subsumed by the one-unit probe. -/
def isConsonantAheadIAST : List Char → Bool
  | [] => false
  | [a] => (iastConsonant1 a).isSome
  | a :: b :: _ => (iastConsonant2 a b).isSome ∨ (iastConsonant1 a).isSome

/-- The lookahead after a matched consonant in iastToDevanagari
(src/editor-quill.js lines 1351 to 1390 and 1409 to 1448, two identical
copies in the source): returns the emitted vowel sign or virama and the
rest of the text still to be scanned.  An empty input is the consonant at
the end of the string, which receives a virama. -/
def iastAfterConsonant : List Char → List Char × List Char
  | [] => (['्'], [])
  | [a] =>
    match iastVowelSign1 a with
    | some s => ([s], [])
    | none =>
      if a = 'a' then ([], [])
      else if isConsonantAheadIAST [a] ∨ isWordBoundaryIAST (some a) then
        (['्'], [a])
      else ([], [a])
  | a :: b :: rest =>
    match iastVowelSign2 a b with
    | some s => ([s], rest)
    | none =>
      match iastVowelSign1 a with
      | some s => ([s], b :: rest)
      | none =>
        if a = 'a' then ([], b :: rest)
        else if isConsonantAheadIAST (a :: b :: rest) ∨
            isWordBoundaryIAST (some a) then
          (['्'], a :: b :: rest)
        else ([], a :: b :: rest)

/-- iastToDevanagari (src/editor-quill.js lines 1206 to 1472) as fuel
recursion on the text: the om ligature first, then the
aspirated-consonant-plus-inherent-a triple, the two-unit consonants and
diphthongs, and then the single-unit consonants, vowels, specials and the
pass-through, each consonant followed by the common lookahead.  Every
step consumes at least one character, so the fuel passed by the wrapper
(length of the text plus one) exceeds the number of steps. -/
def iastToDevanagariAux : Nat → List Char → List Char
  | 0, _ => []
  | _ + 1, [] => []
  | fuel + 1, [a] =>
    match iastConsonant1 a with
    | some g =>
      g :: ((iastAfterConsonant []).1 ++
        iastToDevanagariAux fuel (iastAfterConsonant []).2)
    | none =>
      match iastVowel1 a with
      | some v => [v]
      | none =>
        match iastSpecial a with
        | some s => [s]
        | none => [a]
  | fuel + 1, a :: b :: rest =>
    if a = 'o' ∧ b = 'ṁ' then 'ॐ' :: iastToDevanagariAux fuel rest
    else
      match iastConsonant2 a b with
      | some g =>
        match rest with
        | [] =>
          g :: ((iastAfterConsonant []).1 ++
            iastToDevanagariAux fuel (iastAfterConsonant []).2)
        | d :: rest3 =>
          if d = 'a' then g :: iastToDevanagariAux fuel rest3
          else
            g :: ((iastAfterConsonant (d :: rest3)).1 ++
              iastToDevanagariAux fuel (iastAfterConsonant (d :: rest3)).2)
      | none =>
        match iastVowel2 a b with
        | some v => v :: iastToDevanagariAux fuel rest
        | none =>
          match iastConsonant1 a with
          | some g =>
            g :: ((iastAfterConsonant (b :: rest)).1 ++
              iastToDevanagariAux fuel (iastAfterConsonant (b :: rest)).2)
          | none =>
            match iastVowel1 a with
            | some v => v :: iastToDevanagariAux fuel (b :: rest)
            | none =>
              match iastSpecial a with
              | some s => s :: iastToDevanagariAux fuel (b :: rest)
              | none => a :: iastToDevanagariAux fuel (b :: rest)

/-- iastToDevanagari: the wrapper supplying sufficient fuel. -/
def iastToDevanagari (t : List Char) : List Char :=
  iastToDevanagariAux (t.length + 1) t

/-- The single-character consonant keys of the alphasyllabic consonant
table, in source order. -/
def DEV_CONSONANT_GLYPHS : List Char :=
  ['क', 'ख', 'ग', 'घ', 'ङ', 'च', 'छ', 'ज', 'झ', 'ञ',
   'ट', 'ठ', 'ड', 'ढ', 'ण', 'त', 'थ', 'द', 'ध', 'न',
   'प', 'फ', 'ब', 'भ', 'म', 'य', 'र', 'ल', 'व',
   'श', 'ष', 'स', 'ह', 'ळ']

/-- One single-character rewriting rule of the normalizer: the character a
becomes b, everything else is unchanged. -/
def charRule (a b c : Char) : Char := if c = a then b else c

/-- The ten single-character canonicalizations of preProcessRawText, as
successive maps. -/
def canonMaps (t : List Char) : List Char :=
  ((((((((((t.map (charRule '॑' '̍')).map (charRule '॒' '̱')).map
    (charRule '̲' '̱')).map (charRule '̠' '̱')).map
    (charRule '̡' '̱')).map (charRule '᳚' '̎')).map
    (charRule '́' '̎')).map (charRule 'ṃ' 'ṁ')).map
    (charRule 'ō' 'o')).map (charRule 'ē' 'e'))

/-- A character recognized by no lookup table of devanagariToIAST. -/
abbrev devUnrecognized (c : Char) : Prop :=
  devVowel c = none ∧ devVowelSign c = none ∧ devConsonant c = none ∧
  devSpecial c = none ∧ c ≠ '्'

/-- A character recognized by no lookup table of iastToDevanagari. -/
abbrev iastUnrecognized (c : Char) : Prop :=
  iastVowel1 c = none ∧ iastVowelSign1 c = none ∧ iastConsonant1 c = none ∧
  iastSpecial c = none

/-- The ten ASCII digits, keys of the digit entries of the special table
of iastToDevanagari. -/
def ASCII_DIGITS : List Char :=
  ['0', '1', '2', '3', '4', '5', '6', '7', '8', '9']

/-- The ten devanagari digits, values of the digit entries of the special
table of iastToDevanagari; they are in no table of devanagariToIAST and
pass back through it unchanged. -/
def DEV_DIGITS : List Char :=
  ['०', '१', '२', '३', '४', '५', '६', '७', '८', '९']

/-- The characters of standard IAST text: the single-letter consonants,
the vowel letters other than the two-letter diphthongs, the anusvara and
visarga letters, the avagraha apostrophe, the space, the punctuation and
the digits. -/
def IAST_ALPHABET : List Char :=
  ['k', 'g', 'ṅ', 'c', 'j', 'ñ', 'ṭ', 'ḍ', 'ṇ', 't', 'd', 'n', 'p', 'b',
   'm', 'y', 'r', 'l', 'v', 'ś', 'ṣ', 's', 'h',
   'a', 'ā', 'i', 'ī', 'u', 'ū', 'ṛ', 'ṝ', 'ḷ', 'ḹ', 'e', 'o',
   'ṁ', 'ḥ', '\u0027', ' ', '.', ',', ';', ':', '!', '?', '-', '(', ')',
   '|'] ++ ASCII_DIGITS

/-- The devanagari image of an IAST text re-read as IAST and written back
is the original image. -/
def RT (t : List Char) : Prop :=
  iastToDevanagari (devanagariToIAST (iastToDevanagari t)) = iastToDevanagari t

/-- The IAST re-reading of the devanagari image of a nonempty IAST text
starts with the first character of the text, except that an ASCII digit
is represented by its devanagari digit, which the Latin direction leaves
as it is. -/
def HeadId (t : List Char) : Prop :=
  ∀ d t3, t = d :: t3 →
    ∃ d2 s, devanagariToIAST (iastToDevanagari t) = d2 :: s ∧
      (d2 = d ∨ (d ∈ ASCII_DIGITS ∧ d2 ∈ DEV_DIGITS))

/-! Helper lemmas for the claim theorems. -/

theorem iastAfterConsonant_snd_le (l : List Char) :
    (iastAfterConsonant l).2.length ≤ l.length := by
  match l with
  | [] => simp [iastAfterConsonant]
  | [a] =>
    simp only [iastAfterConsonant]
    split
    · simp
    · split_ifs <;> simp
  | a :: b :: rest =>
    simp only [iastAfterConsonant]
    split
    all_goals try split
    all_goals try split_ifs
    all_goals dsimp only
    all_goals try simp only [List.length_cons]
    all_goals omega

/-- Helper for C9: a character outside the one-unit consonant table also
starts no two-unit consonant, since every aspirate digraph begins with a
consonant letter of the one-unit table. -/
theorem iastConsonant2_eq_none {a : Char} (b : Char)
    (h : iastConsonant1 a = none) : iastConsonant2 a b = none := by
  have h1 : a ≠ 'k' := by rintro rfl; exact absurd h (by decide)
  have h2 : a ≠ 'g' := by rintro rfl; exact absurd h (by decide)
  have h3 : a ≠ 'c' := by rintro rfl; exact absurd h (by decide)
  have h4 : a ≠ 'j' := by rintro rfl; exact absurd h (by decide)
  have h5 : a ≠ 'ṭ' := by rintro rfl; exact absurd h (by decide)
  have h6 : a ≠ 'ḍ' := by rintro rfl; exact absurd h (by decide)
  have h7 : a ≠ 't' := by rintro rfl; exact absurd h (by decide)
  have h8 : a ≠ 'd' := by rintro rfl; exact absurd h (by decide)
  have h9 : a ≠ 'p' := by rintro rfl; exact absurd h (by decide)
  have h10 : a ≠ 'b' := by rintro rfl; exact absurd h (by decide)
  simp [iastConsonant2, h1, h2, h3, h4, h5, h6, h7, h8, h9, h10]

/-- Helper for C9: a character outside the one-unit vowel table also
starts no two-unit vowel, since the diphthongs and the om spelling begin
with the letters a and o of the one-unit table. -/
theorem iastVowel2_eq_none {a : Char} (b : Char)
    (h : iastVowel1 a = none) : iastVowel2 a b = none := by
  have h1 : a ≠ 'a' := by rintro rfl; exact absurd h (by decide)
  have h2 : a ≠ 'o' := by rintro rfl; exact absurd h (by decide)
  simp [iastVowel2, h1, h2]

theorem iastToDevanagariAux_nil (m : Nat) :
    iastToDevanagariAux m ([] : List Char) = [] := by
  cases m <;> rfl

theorem iastAux_fuel_eq :
    ∀ f1 f2 (t : List Char), t.length < f1 → t.length < f2 →
      iastToDevanagariAux f1 t = iastToDevanagariAux f2 t := by
  intro f1
  induction f1 using Nat.strong_induction_on with
  | _ f1 ih =>
    intro f2 t h1 h2
    obtain ⟨m1, rfl⟩ : ∃ m1, f1 = m1 + 1 := ⟨f1 - 1, by omega⟩
    obtain ⟨m2, rfl⟩ : ∃ m2, f2 = m2 + 1 := ⟨f2 - 1, by omega⟩
    match t with
    | [] => rfl
    | [a] =>
      unfold iastToDevanagariAux
      simp only [iastAfterConsonant, iastToDevanagariAux_nil]
    | a :: b :: rest =>
      simp only [List.length_cons] at h1 h2
      unfold iastToDevanagariAux
      by_cases hom : a = 'o' ∧ b = 'ṁ'
      · simp only [if_pos hom]
        rw [ih m1 (by omega) m2 rest (by omega) (by omega)]
      · simp only [if_neg hom]
        cases hc2 : iastConsonant2 a b with
        | some g =>
          simp only [hc2]
          cases rest with
          | nil => simp only [iastAfterConsonant, iastToDevanagariAux_nil]
          | cons d rest3 =>
            simp only [List.length_cons] at h1 h2
            dsimp only
            by_cases hd : d = 'a'
            · subst hd
              rw [if_pos rfl, if_pos rfl,
                ih m1 (by omega) m2 rest3 (by omega) (by omega)]
            · have hlen := iastAfterConsonant_snd_le (d :: rest3)
              simp only [List.length_cons] at hlen
              rw [if_neg hd, if_neg hd,
                ih m1 (by omega) m2 _ (by omega) (by omega)]
        | none =>
          simp only [hc2]
          cases hv2 : iastVowel2 a b with
          | some v =>
            simp only [hv2]
            rw [ih m1 (by omega) m2 rest (by omega) (by omega)]
          | none =>
            simp only [hv2]
            cases hc1 : iastConsonant1 a with
            | some g =>
              simp only [hc1]
              have hlen := iastAfterConsonant_snd_le (b :: rest)
              simp only [List.length_cons] at hlen
              rw [ih m1 (by omega) m2 _ (by omega) (by omega)]
            | none =>
              simp only [hc1]
              cases hv1 : iastVowel1 a with
              | some v =>
                simp only [hv1]
                rw [ih m1 (by omega) m2 (b :: rest)
                  (by simp only [List.length_cons]; omega)
                  (by simp only [List.length_cons]; omega)]
              | none =>
                simp only [hv1]
                cases hs : iastSpecial a with
                | some s =>
                  simp only [hs]
                  rw [ih m1 (by omega) m2 (b :: rest)
                    (by simp only [List.length_cons]; omega)
                    (by simp only [List.length_cons]; omega)]
                | none =>
                  simp only [hs]
                  rw [ih m1 (by omega) m2 (b :: rest)
                    (by simp only [List.length_cons]; omega)
                    (by simp only [List.length_cons]; omega)]

theorem devanagariToIASTAux_nil (m : Nat) :
    devanagariToIASTAux m ([] : List Char) = [] := by
  cases m <;> rfl

theorem devAux_fuel_eq :
    ∀ f1 f2 (t : List Char), t.length < f1 → t.length < f2 →
      devanagariToIASTAux f1 t = devanagariToIASTAux f2 t := by
  intro f1
  induction f1 using Nat.strong_induction_on with
  | _ f1 ih =>
    intro f2 t h1 h2
    obtain ⟨m1, rfl⟩ : ∃ m1, f1 = m1 + 1 := ⟨f1 - 1, by omega⟩
    obtain ⟨m2, rfl⟩ : ∃ m2, f2 = m2 + 1 := ⟨f2 - 1, by omega⟩
    match t with
    | [] => rfl
    | [c] => rfl
    | c :: d :: rest2 =>
      simp only [List.length_cons] at h1 h2
      unfold devanagariToIASTAux
      cases hv : devVowel c with
      | some v =>
        simp only [hv]
        rw [ih m1 (by omega) m2 (d :: rest2)
          (by simp only [List.length_cons]; omega)
          (by simp only [List.length_cons]; omega)]
      | none =>
        simp only [hv]
        cases hk : devConsonant c with
        | some k =>
          simp only [hk]
          cases hvs : devVowelSign d with
          | some vs =>
            simp only [hvs]
            rw [ih m1 (by omega) m2 rest2 (by omega) (by omega)]
          | none =>
            simp only [hvs]
            by_cases hd : d = '्'
            · rw [if_pos hd, if_pos hd,
                ih m1 (by omega) m2 rest2 (by omega) (by omega)]
            · rw [if_neg hd, if_neg hd,
                ih m1 (by omega) m2 (d :: rest2)
                  (by simp only [List.length_cons]; omega)
                  (by simp only [List.length_cons]; omega)]
        | none =>
          simp only [hk]
          cases hvs : devVowelSign c with
          | some vs =>
            simp only [hvs]
            rw [ih m1 (by omega) m2 (d :: rest2)
              (by simp only [List.length_cons]; omega)
              (by simp only [List.length_cons]; omega)]
          | none =>
            simp only [hvs]
            by_cases hc : c = '्'
            · rw [if_pos hc, if_pos hc,
                ih m1 (by omega) m2 (d :: rest2)
                  (by simp only [List.length_cons]; omega)
                  (by simp only [List.length_cons]; omega)]
            · rw [if_neg hc, if_neg hc]
              cases hs : devSpecial c with
              | some s =>
                simp only [hs]
                rw [ih m1 (by omega) m2 (d :: rest2)
                  (by simp only [List.length_cons]; omega)
                  (by simp only [List.length_cons]; omega)]
              | none =>
                simp only [hs]
                rw [ih m1 (by omega) m2 (d :: rest2)
                  (by simp only [List.length_cons]; omega)
                  (by simp only [List.length_cons]; omega)]

theorem iastAux_eq (fuel : Nat) (t : List Char) (h : t.length < fuel) :
    iastToDevanagariAux fuel t = iastToDevanagari t :=
  iastAux_fuel_eq fuel (t.length + 1) t h (by omega)

theorem devAux_eq (fuel : Nat) (t : List Char) (h : t.length < fuel) :
    devanagariToIASTAux fuel t = devanagariToIAST t :=
  devAux_fuel_eq fuel (t.length + 1) t h (by omega)

theorem iastVowel1_none_of_cons1 {a : Char} {g : Char}
    (h : iastConsonant1 a = some g) : iastVowel1 a = none := by
  unfold iastConsonant1 at h
  split at h <;> simp_all <;> decide

theorem iastConsonant1_none_of_vowel1 {a : Char} {v : Char}
    (h : iastVowel1 a = some v) : iastConsonant1 a = none := by
  unfold iastVowel1 at h
  split at h
  all_goals try decide
  all_goals simp_all

theorem devConsonant_of_cons1 {a : Char} {g : Char}
    (h : iastConsonant1 a = some g) : devConsonant g = some (String.mk [a]) := by
  unfold iastConsonant1 at h
  split at h
  all_goals try (injection h with hg; subst hg; decide)
  all_goals simp_all

theorem iast_step_om (t' : List Char) :
    iastToDevanagari ('o' :: 'ṁ' :: t') = 'ॐ' :: iastToDevanagari t' := by
  show iastToDevanagariAux (t'.length + 1 + 1 + 1) ('o' :: 'ṁ' :: t') = _
  simp only [iastToDevanagariAux, and_self, if_true]
  rw [iastAux_eq _ _ (by omega)]

theorem iastConsonant2_om {g : Char} (hc2 : iastConsonant2 'o' 'ṁ' = some g) :
    False := by
  have h0 : iastConsonant2 'o' 'ṁ' = none := by decide
  rw [h0] at hc2
  exact Option.noConfusion hc2

theorem iast_step_c2a {a b g : Char} (hc2 : iastConsonant2 a b = some g)
    (t' : List Char) :
    iastToDevanagari (a :: b :: 'a' :: t') = g :: iastToDevanagari t' := by
  have hom : ¬(a = 'o' ∧ b = 'ṁ') := by
    rintro ⟨rfl, rfl⟩; exact iastConsonant2_om hc2
  show iastToDevanagariAux (t'.length + 1 + 1 + 1 + 1) (a :: b :: 'a' :: t') = _
  simp only [iastToDevanagariAux]
  rw [if_neg hom]
  simp only [hc2, if_true]
  rw [iastAux_eq _ _ (by omega)]

theorem iast_step_c2nil {a b g : Char} (hc2 : iastConsonant2 a b = some g) :
    iastToDevanagari [a, b] = [g, '्'] := by
  have hom : ¬(a = 'o' ∧ b = 'ṁ') := by
    rintro ⟨rfl, rfl⟩; exact iastConsonant2_om hc2
  show iastToDevanagariAux (0 + 1 + 1 + 1) [a, b] = _
  simp only [iastToDevanagariAux]
  rw [if_neg hom]
  simp only [hc2]
  simp [iastAfterConsonant, iastToDevanagariAux_nil]

theorem iast_step_c2mid {a b g d : Char} (hc2 : iastConsonant2 a b = some g)
    (hd : d ≠ 'a') (r : List Char) :
    iastToDevanagari (a :: b :: d :: r) =
      g :: ((iastAfterConsonant (d :: r)).1 ++
        iastToDevanagari (iastAfterConsonant (d :: r)).2) := by
  have hom : ¬(a = 'o' ∧ b = 'ṁ') := by
    rintro ⟨rfl, rfl⟩; exact iastConsonant2_om hc2
  have hlen := iastAfterConsonant_snd_le (d :: r)
  simp only [List.length_cons] at hlen
  show iastToDevanagariAux (r.length + 1 + 1 + 1 + 1) (a :: b :: d :: r) = _
  simp only [iastToDevanagariAux]
  rw [if_neg hom]
  simp only [hc2]
  rw [if_neg hd, iastAux_eq _ _ (by omega)]

theorem iast_step_v2 {a b v : Char} (hv2 : iastVowel2 a b = some v)
    (t' : List Char) :
    iastToDevanagari (a :: b :: t') = v :: iastToDevanagari t' := by
  by_cases hom : a = 'o' ∧ b = 'ṁ'
  · obtain ⟨rfl, rfl⟩ := hom
    have hv : v = 'ॐ' := by
      have he : iastVowel2 'o' 'ṁ' = some 'ॐ' := by decide
      rw [he] at hv2
      exact (Option.some.inj hv2).symm
    subst hv
    exact iast_step_om t'
  · have ha : a = 'a' ∨ a = 'o' := by
      unfold iastVowel2 at hv2
      split_ifs at hv2 with h1 h2
      · exact Or.inl h1.1
      · exact Or.inl h2.1
    have hc2 : iastConsonant2 a b = none := by
      rcases ha with rfl | rfl
      · exact iastConsonant2_eq_none b (by decide)
      · exact iastConsonant2_eq_none b (by decide)
    show iastToDevanagariAux (t'.length + 1 + 1 + 1) (a :: b :: t') = _
    simp only [iastToDevanagariAux]
    rw [if_neg hom]
    simp only [hc2, hv2]
    rw [iastAux_eq _ _ (by omega)]

theorem iast_step_c1nil {a g : Char} (hc1 : iastConsonant1 a = some g) :
    iastToDevanagari [a] = [g, '्'] := by
  show iastToDevanagariAux (0 + 1 + 1) [a] = _
  simp only [iastToDevanagariAux, hc1]
  simp [iastAfterConsonant, iastToDevanagariAux_nil]

theorem iast_step_c1 {a b g : Char} (hc1 : iastConsonant1 a = some g)
    (hc2 : iastConsonant2 a b = none) (r : List Char) :
    iastToDevanagari (a :: b :: r) =
      g :: ((iastAfterConsonant (b :: r)).1 ++
        iastToDevanagari (iastAfterConsonant (b :: r)).2) := by
  have hom : ¬(a = 'o' ∧ b = 'ṁ') := by
    rintro ⟨rfl, -⟩
    rw [show iastConsonant1 'o' = none from by decide] at hc1
    exact Option.noConfusion hc1
  have hv2 : iastVowel2 a b = none :=
    iastVowel2_eq_none b (iastVowel1_none_of_cons1 hc1)
  have hlen := iastAfterConsonant_snd_le (b :: r)
  simp only [List.length_cons] at hlen
  show iastToDevanagariAux (r.length + 1 + 1 + 1) (a :: b :: r) = _
  simp only [iastToDevanagariAux]
  rw [if_neg hom]
  simp only [hc2, hv2, hc1]
  rw [iastAux_eq _ _ (by omega)]

theorem iast_step_v1nil {a v : Char} (hv1 : iastVowel1 a = some v) :
    iastToDevanagari [a] = [v] := by
  have hc1 : iastConsonant1 a = none := iastConsonant1_none_of_vowel1 hv1
  show iastToDevanagariAux (0 + 1 + 1) [a] = _
  simp only [iastToDevanagariAux, hc1, hv1]

theorem iast_step_v1 {a b v : Char} (hv1 : iastVowel1 a = some v)
    (hv2 : iastVowel2 a b = none) (r : List Char) :
    iastToDevanagari (a :: b :: r) = v :: iastToDevanagari (b :: r) := by
  have hc1 : iastConsonant1 a = none := iastConsonant1_none_of_vowel1 hv1
  have hom : ¬(a = 'o' ∧ b = 'ṁ') := by
    rintro ⟨rfl, rfl⟩
    rw [show iastVowel2 'o' 'ṁ' = some 'ॐ' from by decide] at hv2
    exact Option.noConfusion hv2
  have hc2 : iastConsonant2 a b = none := iastConsonant2_eq_none b hc1
  show iastToDevanagariAux (r.length + 1 + 1 + 1) (a :: b :: r) = _
  simp only [iastToDevanagariAux]
  rw [if_neg hom]
  simp only [hc2, hv2, hc1, hv1]
  rw [iastAux_eq _ _ (by simp only [List.length_cons]; omega)]

theorem iast_step_spnil {a s : Char} (hv1 : iastVowel1 a = none)
    (hc1 : iastConsonant1 a = none) (hs : iastSpecial a = some s) :
    iastToDevanagari [a] = [s] := by
  show iastToDevanagariAux (0 + 1 + 1) [a] = _
  simp only [iastToDevanagariAux, hc1, hv1, hs]

theorem iast_step_sp {a b s : Char} (hv1 : iastVowel1 a = none)
    (hc1 : iastConsonant1 a = none) (hs : iastSpecial a = some s)
    (r : List Char) :
    iastToDevanagari (a :: b :: r) = s :: iastToDevanagari (b :: r) := by
  have hom : ¬(a = 'o' ∧ b = 'ṁ') := by
    rintro ⟨rfl, -⟩
    rw [show iastVowel1 'o' = some 'ओ' from by decide] at hv1
    exact Option.noConfusion hv1
  have hc2 : iastConsonant2 a b = none := iastConsonant2_eq_none b hc1
  have hv2 : iastVowel2 a b = none := iastVowel2_eq_none b hv1
  show iastToDevanagariAux (r.length + 1 + 1 + 1) (a :: b :: r) = _
  simp only [iastToDevanagariAux]
  rw [if_neg hom]
  simp only [hc2, hv2, hc1, hv1, hs]
  rw [iastAux_eq _ _ (by simp only [List.length_cons]; omega)]

theorem iast_step_passnil {a : Char} (hv1 : iastVowel1 a = none)
    (hc1 : iastConsonant1 a = none) (hs : iastSpecial a = none) :
    iastToDevanagari [a] = [a] := by
  show iastToDevanagariAux (0 + 1 + 1) [a] = _
  simp only [iastToDevanagariAux, hc1, hv1, hs]

theorem iast_step_pass {a b : Char} (hv1 : iastVowel1 a = none)
    (hc1 : iastConsonant1 a = none) (hs : iastSpecial a = none)
    (r : List Char) :
    iastToDevanagari (a :: b :: r) = a :: iastToDevanagari (b :: r) := by
  have hom : ¬(a = 'o' ∧ b = 'ṁ') := by
    rintro ⟨rfl, -⟩
    rw [show iastVowel1 'o' = some 'ओ' from by decide] at hv1
    exact Option.noConfusion hv1
  have hc2 : iastConsonant2 a b = none := iastConsonant2_eq_none b hc1
  have hv2 : iastVowel2 a b = none := iastVowel2_eq_none b hv1
  show iastToDevanagariAux (r.length + 1 + 1 + 1) (a :: b :: r) = _
  simp only [iastToDevanagariAux]
  rw [if_neg hom]
  simp only [hc2, hv2, hc1, hv1, hs]
  rw [iastAux_eq _ _ (by simp only [List.length_cons]; omega)]

theorem devVowel_none_of_cons {c : Char} {k : String}
    (h : devConsonant c = some k) : devVowel c = none := by
  unfold devConsonant at h
  split at h
  all_goals try decide
  all_goals simp_all

set_option maxHeartbeats 1600000 in
theorem devConsonant_of_cons2 {a b g : Char}
    (h : iastConsonant2 a b = some g) :
    devConsonant g = some (String.mk [a, b]) := by
  unfold iastConsonant2 at h
  split_ifs at h
  all_goals obtain ⟨rfl, rfl⟩ := ‹_ ∧ _›
  all_goals injection h with hg
  all_goals subst hg
  all_goals decide

theorem devVowel_of_vowel1 {a v : Char} (ha : a ≠ 'ṁ')
    (h : iastVowel1 a = some v) : devVowel v = some (String.mk [a]) := by
  unfold iastVowel1 at h
  split at h
  all_goals try (injection h with hv; subst hv; decide)
  all_goals simp_all

theorem devVowel_of_vowel2 {a b v : Char} (h : iastVowel2 a b = some v) :
    devVowel v = some (String.mk [a, b]) := by
  unfold iastVowel2 at h
  split_ifs at h
  all_goals obtain ⟨rfl, rfl⟩ := ‹_ ∧ _›
  all_goals injection h with hv
  all_goals subst hv
  all_goals decide

theorem devVowelSign_of_sign1 {x : Char} {s : Char}
    (h : iastVowelSign1 x = some s) :
    devVowelSign s = some (String.mk [x]) := by
  unfold iastVowelSign1 at h
  split at h
  all_goals try (injection h with hs; subst hs; decide)
  all_goals simp_all

theorem devVowelSign_of_sign2 {x y : Char} {s : Char}
    (h : iastVowelSign2 x y = some s) :
    devVowelSign s = some (String.mk [x, y]) := by
  unfold iastVowelSign2 at h
  split_ifs at h
  all_goals obtain ⟨rfl, rfl⟩ := ‹_ ∧ _›
  all_goals injection h with hs
  all_goals subst hs
  all_goals decide

theorem dev_step_vowel {c : Char} {v : String} (hv : devVowel c = some v)
    (d' : List Char) :
    devanagariToIAST (c :: d') = v.data ++ devanagariToIAST d' := by
  cases d' with
  | nil =>
    show devanagariToIASTAux (0 + 1 + 1) [c] = _
    simp only [devanagariToIASTAux, hv]
    show v.data = v.data ++ devanagariToIAST []
    simp [devanagariToIAST, devanagariToIASTAux_nil]
  | cons e r =>
    show devanagariToIASTAux (r.length + 1 + 1 + 1) (c :: e :: r) = _
    simp only [devanagariToIASTAux, hv]
    rw [devAux_eq _ _ (by simp only [List.length_cons]; omega)]

theorem dev_step_cons_nil {c : Char} {k : String}
    (hk : devConsonant c = some k) :
    devanagariToIAST [c] = k.data := by
  have hv : devVowel c = none := devVowel_none_of_cons hk
  show devanagariToIASTAux (0 + 1 + 1) [c] = _
  simp only [devanagariToIASTAux, hv, hk]

theorem dev_step_cons_virama {c : Char} {k : String}
    (hk : devConsonant c = some k) (d' : List Char) :
    devanagariToIAST (c :: '्' :: d') = k.data ++ devanagariToIAST d' := by
  have hv : devVowel c = none := devVowel_none_of_cons hk
  show devanagariToIASTAux (d'.length + 1 + 1 + 1) (c :: '्' :: d') = _
  simp only [devanagariToIASTAux, hv, hk]
  rw [show devVowelSign '्' = none from by decide]
  simp only [if_true]
  rw [devAux_eq _ _ (by omega)]

theorem dev_step_cons_sign {c e : Char} {k vs : String}
    (hk : devConsonant c = some k) (hvs : devVowelSign e = some vs)
    (d' : List Char) :
    devanagariToIAST (c :: e :: d') =
      k.data ++ vs.data ++ devanagariToIAST d' := by
  have hv : devVowel c = none := devVowel_none_of_cons hk
  show devanagariToIASTAux (d'.length + 1 + 1 + 1) (c :: e :: d') = _
  simp only [devanagariToIASTAux, hv, hk, hvs]
  rw [devAux_eq _ _ (by omega), List.append_assoc]

theorem dev_step_cons_bare {c e : Char} {k : String}
    (hk : devConsonant c = some k) (hvs : devVowelSign e = none)
    (he : e ≠ '्') (r : List Char) :
    devanagariToIAST (c :: e :: r) =
      k.data ++ 'a' :: devanagariToIAST (e :: r) := by
  have hv : devVowel c = none := devVowel_none_of_cons hk
  show devanagariToIASTAux (r.length + 1 + 1 + 1) (c :: e :: r) = _
  simp only [devanagariToIASTAux, hv, hk, hvs]
  rw [if_neg he, devAux_eq _ _ (by simp only [List.length_cons]; omega)]

theorem dev_step_special {c : Char} {s : String}
    (hv : devVowel c = none) (hk : devConsonant c = none)
    (hvs : devVowelSign c = none) (hvir : c ≠ '्')
    (hs : devSpecial c = some s) (d' : List Char) :
    devanagariToIAST (c :: d') = s.data ++ devanagariToIAST d' := by
  cases d' with
  | nil =>
    show devanagariToIASTAux (0 + 1 + 1) [c] = _
    simp only [devanagariToIASTAux, hv, hk, hvs, hs]
    rw [if_neg hvir]
    show s.data = s.data ++ devanagariToIAST []
    simp [devanagariToIAST, devanagariToIASTAux_nil]
  | cons e r =>
    show devanagariToIASTAux (r.length + 1 + 1 + 1) (c :: e :: r) = _
    simp only [devanagariToIASTAux, hv, hk, hvs]
    rw [if_neg hvir]
    simp only [hs]
    rw [devAux_eq _ _ (by simp only [List.length_cons]; omega)]

theorem dev_step_pass {c : Char}
    (hv : devVowel c = none) (hk : devConsonant c = none)
    (hvs : devVowelSign c = none) (hvir : c ≠ '्')
    (hs : devSpecial c = none) (d' : List Char) :
    devanagariToIAST (c :: d') = c :: devanagariToIAST d' := by
  cases d' with
  | nil =>
    show devanagariToIASTAux (0 + 1 + 1) [c] = _
    simp only [devanagariToIASTAux, hv, hk, hvs, hs]
    rw [if_neg hvir]
    rfl
  | cons e r =>
    show devanagariToIASTAux (r.length + 1 + 1 + 1) (c :: e :: r) = _
    simp only [devanagariToIASTAux, hv, hk, hvs]
    rw [if_neg hvir]
    simp only [hs]
    rw [devAux_eq _ _ (by simp only [List.length_cons]; omega)]

theorem iastVowelSign2_none_of_ne_a {y : Char} (z : Char) (hy : y ≠ 'a') :
    iastVowelSign2 y z = none := by
  simp [iastVowelSign2, hy]

theorem iastConsonant2_none_of_ne_h {b : Char} (a : Char) (hb : b ≠ 'h') :
    iastConsonant2 a b = none := by
  simp [iastConsonant2, hb]

theorem iastVowelSign1_ne_a {y : Char} {S : Char}
    (h : iastVowelSign1 y = some S) : y ≠ 'a' := by
  rintro rfl
  rw [show iastVowelSign1 'a' = none from by decide] at h
  exact Option.noConfusion h

theorem afterCons_sign2 {y z S : Char} (h : iastVowelSign2 y z = some S)
    (s : List Char) : iastAfterConsonant (y :: z :: s) = ([S], s) := by
  simp only [iastAfterConsonant, h]

theorem afterCons_sign1 {y S : Char} (h : iastVowelSign1 y = some S)
    (s : List Char) : iastAfterConsonant (y :: s) = ([S], s) := by
  have hy : y ≠ 'a' := iastVowelSign1_ne_a h
  cases s with
  | nil => simp only [iastAfterConsonant, h]
  | cons z s' =>
    simp only [iastAfterConsonant, iastVowelSign2_none_of_ne_a z hy, h]

theorem afterCons_inherent {s : List Char}
    (hs : ∀ z, s.head? = some z → z ≠ 'i' ∧ z ≠ 'u') :
    iastAfterConsonant ('a' :: s) = ([], s) := by
  cases s with
  | nil => decide
  | cons z s' =>
    obtain ⟨hz1, hz2⟩ := hs z rfl
    have h2 : iastVowelSign2 'a' z = none := by
      simp [iastVowelSign2, hz1, hz2]
    simp only [iastAfterConsonant, h2,
      show iastVowelSign1 'a' = none from by decide, if_true]

theorem afterCons_virama {y : Char} {s : List Char} (hy : y ≠ 'a')
    (hs1 : iastVowelSign1 y = none)
    (hcb : isConsonantAheadIAST (y :: s) ∨ isWordBoundaryIAST (some y)) :
    iastAfterConsonant (y :: s) = (['्'], y :: s) := by
  cases s with
  | nil =>
    simp only [iastAfterConsonant, hs1]
    rw [if_neg hy, if_pos hcb]
  | cons z s' =>
    simp only [iastAfterConsonant, iastVowelSign2_none_of_ne_a z hy, hs1]
    rw [if_neg hy, if_pos hcb]

theorem iastVowel2_none_of_ne {a : Char} (b : Char) (h1 : a ≠ 'a')
    (h2 : a ≠ 'o') : iastVowel2 a b = none := by
  simp [iastVowel2, h1, h2]

set_option maxHeartbeats 1600000 in
theorem cons2_some_cons1 {a b g : Char} (h : iastConsonant2 a b = some g) :
    (iastConsonant1 a).isSome := by
  unfold iastConsonant2 at h
  split_ifs at h
  all_goals obtain ⟨rfl, rfl⟩ := ‹_ ∧ _›
  all_goals decide

theorem consAhead_of_cons1 {d : Char} (h : (iastConsonant1 d).isSome)
    (s : List Char) : isConsonantAheadIAST (d :: s) = true := by
  cases s with
  | nil => simpa [isConsonantAheadIAST] using h
  | cons b s' => simp [isConsonantAheadIAST, h]

theorem consAhead_cons1 {d : Char} {s : List Char}
    (h : isConsonantAheadIAST (d :: s) = true) :
    (iastConsonant1 d).isSome := by
  cases s with
  | nil => simpa [isConsonantAheadIAST] using h
  | cons b s' =>
    simp only [isConsonantAheadIAST, Bool.or_eq_true, decide_eq_true_eq] at h
    rcases h with h | h
    · rcases ho : iastConsonant2 d b with _ | g
      · rw [ho] at h; exact absurd h (by decide)
      · exact cons2_some_cons1 ho
    · exact h

theorem devVowelSign_none_of_devConsonant {g : Char} {k : String}
    (h : devConsonant g = some k) : devVowelSign g = none ∧ g ≠ '्' := by
  unfold devConsonant at h
  split at h
  all_goals try decide
  all_goals simp_all

theorem devVowelSign_none_of_devVowel {v : Char} {k : String}
    (h : devVowel v = some k) : devVowelSign v = none ∧ v ≠ '्' := by
  unfold devVowel at h
  split at h
  all_goals try decide
  all_goals simp_all

theorem iastSpecial_head_facts {z s : Char} (h : iastSpecial z = some s) :
    devVowelSign s = none ∧ s ≠ '्' := by
  unfold iastSpecial at h
  split at h
  all_goals try (injection h with hs; subst hs; decide)
  all_goals simp_all

set_option maxHeartbeats 800000 in
theorem special_inv : ∀ z ∈ IAST_ALPHABET, ∀ s ∈ (iastSpecial z).toList,
    devVowel s = none ∧ devConsonant s = none ∧ devVowelSign s = none ∧
      ¬ s = '्' ∧
      (devSpecial s = some (String.mk [z]) ∨
        (z ∈ ASCII_DIGITS ∧ s ∈ DEV_DIGITS ∧ devSpecial s = none ∧
          iastVowel1 s = none ∧ iastConsonant1 s = none ∧
          iastSpecial s = none)) := by
  decide

theorem devDigits_ne : ∀ d ∈ DEV_DIGITS,
    d ≠ 'i' ∧ d ≠ 'u' ∧ d ≠ 'ṁ' ∧ d ≠ 'a' := by
  decide

theorem asciiDigits_no_cons : ∀ d ∈ ASCII_DIGITS,
    iastConsonant1 d = none ∧ isWordBoundaryIAST (some d) = false := by
  decide

theorem iastVowel2_none_of_snd {b : Char} (a : Char) (h1 : b ≠ 'i')
    (h2 : b ≠ 'u') (h3 : b ≠ 'ṁ') : iastVowel2 a b = none := by
  simp [iastVowel2, h1, h2, h3]

set_option maxHeartbeats 800000 in
theorem pass_inv : ∀ z ∈ IAST_ALPHABET, iastVowel1 z = none →
    iastConsonant1 z = none → iastSpecial z = none →
    devVowel z = none ∧ devConsonant z = none ∧ devVowelSign z = none ∧
      ¬ z = '्' ∧ devSpecial z = none := by
  decide

theorem vowel1_head_facts {z V : Char} (h : iastVowel1 z = some V) :
    devVowelSign V = none ∧ V ≠ '्' := by
  unfold iastVowel1 at h
  split at h
  all_goals try (injection h with hv; subst hv; decide)
  all_goals simp_all

theorem iast_head_facts (z : Char) (t' : List Char) (hz : z ∈ IAST_ALPHABET) :
    ∃ h s, iastToDevanagari (z :: t') = h :: s ∧
      devVowelSign h = none ∧ h ≠ '्' := by
  cases t' with
  | nil =>
    rcases hv1 : iastVowel1 z with _ | V
    · rcases hc1 : iastConsonant1 z with _ | G
      · rcases hsp : iastSpecial z with _ | S
        · have hp := pass_inv z hz hv1 hc1 hsp
          exact ⟨z, [], iast_step_passnil hv1 hc1 hsp,
            hp.2.2.1, hp.2.2.2.1⟩
        · have hf := iastSpecial_head_facts hsp
          exact ⟨S, [], iast_step_spnil hv1 hc1 hsp, hf.1, hf.2⟩
      · have hf := devVowelSign_none_of_devConsonant (devConsonant_of_cons1 hc1)
        exact ⟨G, ['्'], iast_step_c1nil hc1, hf.1, hf.2⟩
    · have hf := vowel1_head_facts hv1
      exact ⟨V, [], iast_step_v1nil hv1, hf.1, hf.2⟩
  | cons w t'' =>
    by_cases hom : z = 'o' ∧ w = 'ṁ'
    · obtain ⟨rfl, rfl⟩ := hom
      exact ⟨'ॐ', iastToDevanagari t'', iast_step_om t'', by decide, by decide⟩
    · rcases hc2 : iastConsonant2 z w with _ | G
      · rcases hv2 : iastVowel2 z w with _ | V
        · rcases hc1 : iastConsonant1 z with _ | G
          · rcases hv1 : iastVowel1 z with _ | V
            · rcases hsp : iastSpecial z with _ | S
              · have hp := pass_inv z hz hv1 hc1 hsp
                exact ⟨z, _, iast_step_pass hv1 hc1 hsp _,
                  hp.2.2.1, hp.2.2.2.1⟩
              · have hf := iastSpecial_head_facts hsp
                exact ⟨S, _, iast_step_sp hv1 hc1 hsp _, hf.1, hf.2⟩
            · have hf := vowel1_head_facts hv1
              exact ⟨V, _, iast_step_v1 hv1 hv2 _, hf.1, hf.2⟩
          · have hf := devVowelSign_none_of_devConsonant
              (devConsonant_of_cons1 hc1)
            exact ⟨G, _, iast_step_c1 hc1 hc2 _, hf.1, hf.2⟩
        · have hf := devVowelSign_none_of_devVowel (devVowel_of_vowel2 hv2)
          exact ⟨V, _, iast_step_v2 hv2 _, hf.1, hf.2⟩
      · have hf := devVowelSign_none_of_devConsonant
          (devConsonant_of_cons2 hc2)
        cases t'' with
        | nil => exact ⟨G, ['्'], iast_step_c2nil hc2, hf.1, hf.2⟩
        | cons d t3 =>
          by_cases hd : d = 'a'
          · subst hd
            exact ⟨G, _, iast_step_c2a hc2 t3, hf.1, hf.2⟩
          · exact ⟨G, _, iast_step_c2mid hc2 hd t3, hf.1, hf.2⟩

theorem afterCons_bare {y : Char} {s : List Char} (hy : y ≠ 'a')
    (hs1 : iastVowelSign1 y = none)
    (hcb : ¬(isConsonantAheadIAST (y :: s) ∨ isWordBoundaryIAST (some y))) :
    iastAfterConsonant (y :: s) = ([], y :: s) := by
  cases s with
  | nil =>
    simp only [iastAfterConsonant, hs1]
    rw [if_neg hy, if_neg hcb]
  | cons z s' =>
    simp only [iastAfterConsonant, iastVowelSign2_none_of_ne_a z hy, hs1]
    rw [if_neg hy, if_neg hcb]

theorem sign1_none_ne_i {w : Char} (h : iastVowelSign1 w = none) :
    w ≠ 'i' := by
  rintro rfl
  rw [show iastVowelSign1 'i' = some 'ि' from rfl] at h
  exact Option.noConfusion h

theorem sign1_none_ne_u {w : Char} (h : iastVowelSign1 w = none) :
    w ≠ 'u' := by
  rintro rfl
  rw [show iastVowelSign1 'u' = some 'ु' from rfl] at h
  exact Option.noConfusion h

theorem sign2_a_none_ne_i {e : Char} (h : iastVowelSign2 'a' e = none) :
    e ≠ 'i' := by
  rintro rfl
  rw [show iastVowelSign2 'a' 'i' = some 'ै' from by decide] at h
  exact Option.noConfusion h

theorem sign2_a_none_ne_u {e : Char} (h : iastVowelSign2 'a' e = none) :
    e ≠ 'u' := by
  rintro rfl
  rw [show iastVowelSign2 'a' 'u' = some 'ौ' from by decide] at h
  exact Option.noConfusion h

theorem head_ne_iu {a : Char} (h1 : a ≠ 'i') (h2 : a ≠ 'u') :
    ∀ (l : List Char) z', (a :: l).head? = some z' →
      z' ≠ 'i' ∧ z' ≠ 'u' := by
  intro l z' hz'
  rw [List.head?_cons] at hz'
  injection hz' with hz''
  subst hz''
  exact ⟨h1, h2⟩

theorem c1_step (z : Char) (rest : List Char)
    (IH : ∀ r : List Char, r.length ≤ rest.length →
      (∀ c ∈ r, c ∈ IAST_ALPHABET) →
      (∀ gl, (iastToDevanagari r).getLast? = some gl →
        devConsonant gl = none) →
      RT r ∧ HeadId r)
    (halpha : ∀ c ∈ z :: rest, c ∈ IAST_ALPHABET)
    (hlast : ∀ gl, (iastToDevanagari (z :: rest)).getLast? = some gl →
      devConsonant gl = none) :
    RT (z :: rest) ∧ HeadId (z :: rest) := by
  have hz : z ∈ IAST_ALPHABET := halpha z (by simp)
  have lastTrans : ∀ (u r : List Char),
      iastToDevanagari (z :: rest) = u ++ iastToDevanagari r →
      ∀ gl, (iastToDevanagari r).getLast? = some gl →
        devConsonant gl = none := by
    intro u r h1 gl hgl
    apply hlast
    rw [h1, List.getLast?_append, hgl]
    rfl
  have assembleG : ∀ (u p r : List Char),
      iastToDevanagari (z :: rest) = u ++ iastToDevanagari r →
      r.length ≤ rest.length →
      (∀ c ∈ r, c ∈ IAST_ALPHABET) →
      devanagariToIAST (iastToDevanagari (z :: rest)) =
        p ++ devanagariToIAST (iastToDevanagari r) →
      iastToDevanagari (p ++ devanagariToIAST (iastToDevanagari r)) =
        u ++ iastToDevanagari (devanagariToIAST (iastToDevanagari r)) →
      (∃ d2 ptl, p = d2 :: ptl ∧
        (d2 = z ∨ (z ∈ ASCII_DIGITS ∧ d2 ∈ DEV_DIGITS))) →
      RT (z :: rest) ∧ HeadId (z :: rest) := by
    intro u p r h1 hlen halr h2 h3 hp
    have hrt := (IH r hlen halr (lastTrans u r h1)).1
    constructor
    · show iastToDevanagari (devanagariToIAST (iastToDevanagari (z :: rest)))
        = iastToDevanagari (z :: rest)
      rw [h2, h3, hrt, ← h1]
    · intro d t3 heq
      injection heq with hzd hr3
      subst hzd
      obtain ⟨d2, ptl, rfl, hcase⟩ := hp
      exact ⟨d2, ptl ++ devanagariToIAST (iastToDevanagari r),
        by rw [h2]; rfl, hcase⟩
  have assemble : ∀ (u ptail r : List Char),
      iastToDevanagari (z :: rest) = u ++ iastToDevanagari r →
      r.length ≤ rest.length →
      (∀ c ∈ r, c ∈ IAST_ALPHABET) →
      devanagariToIAST (iastToDevanagari (z :: rest)) =
        (z :: ptail) ++ devanagariToIAST (iastToDevanagari r) →
      iastToDevanagari
          ((z :: ptail) ++ devanagariToIAST (iastToDevanagari r)) =
        u ++ iastToDevanagari (devanagariToIAST (iastToDevanagari r)) →
      RT (z :: rest) ∧ HeadId (z :: rest) :=
    fun u ptail r h1 hlen halr h2 h3 =>
      assembleG u (z :: ptail) r h1 hlen halr h2 h3
        ⟨z, ptail, rfl, Or.inl rfl⟩
  cases rest with
  | nil =>
    rcases hv1 : iastVowel1 z with _ | V
    · rcases hc1 : iastConsonant1 z with _ | G
      · rcases hsp : iastSpecial z with _ | S
        · have hp := pass_inv z hz hv1 hc1 hsp
          refine assemble [z] [] [] ?_ (by simp) (by simp) ?_ ?_
          · rw [iast_step_passnil hv1 hc1 hsp]
            rfl
          · rw [iast_step_passnil hv1 hc1 hsp,
              dev_step_pass hp.1 hp.2.1 hp.2.2.1 hp.2.2.2.1 hp.2.2.2.2]
            rfl
          · show iastToDevanagari [z] = _
            rw [iast_step_passnil hv1 hc1 hsp]
            rfl
        · have hspf := special_inv z hz S (by simp [hsp])
          rcases hspf.2.2.2.2 with hnamed | hdig
          · refine assemble [S] [] [] ?_ (by simp) (by simp) ?_ ?_
            · rw [iast_step_spnil hv1 hc1 hsp]
              rfl
            · rw [iast_step_spnil hv1 hc1 hsp,
                dev_step_special hspf.1 hspf.2.1 hspf.2.2.1 hspf.2.2.2.1
                  hnamed]
              rfl
            · show iastToDevanagari [z] = _
              rw [iast_step_spnil hv1 hc1 hsp]
              rfl
          · refine assembleG [S] [S] [] ?_ (by simp) (by simp) ?_ ?_
              ⟨S, [], rfl, Or.inr ⟨hdig.1, hdig.2.1⟩⟩
            · rw [iast_step_spnil hv1 hc1 hsp]
              rfl
            · rw [iast_step_spnil hv1 hc1 hsp,
                dev_step_pass hspf.1 hspf.2.1 hspf.2.2.1 hspf.2.2.2.1
                  hdig.2.2.1]
              rfl
            · show iastToDevanagari [S] = _
              rw [iast_step_passnil hdig.2.2.2.1 hdig.2.2.2.2.1
                hdig.2.2.2.2.2]
              rfl
      · refine assemble [G, '्'] [] [] ?_ (by simp) (by simp) ?_ ?_
        · rw [iast_step_c1nil hc1]
          rfl
        · rw [iast_step_c1nil hc1,
            dev_step_cons_virama (devConsonant_of_cons1 hc1)]
          rfl
        · show iastToDevanagari [z] = _
          rw [iast_step_c1nil hc1]
          rfl
    · refine assemble [V] [] [] ?_ (by simp) (by simp) ?_ ?_
      · rw [iast_step_v1nil hv1]
        rfl
      · by_cases hzm : z = 'ṁ'
        · subst hzm
          have hV : V = 'ं' := by
            rw [show iastVowel1 'ṁ' = some 'ं' from rfl] at hv1
            exact (Option.some.inj hv1).symm
          subst hV
          rw [iast_step_v1nil hv1,
            dev_step_special (by decide) (by decide) (by decide) (by decide)
              (show devSpecial 'ं' = some "ṁ" from by decide)]
          rfl
        · rw [iast_step_v1nil hv1, dev_step_vowel (devVowel_of_vowel1 hzm hv1)]
          rfl
      · show iastToDevanagari [z] = _
        rw [iast_step_v1nil hv1]
        rfl
  | cons w t'' =>
    by_cases hom : z = 'o' ∧ w = 'ṁ'
    · obtain ⟨rfl, rfl⟩ := hom
      have h1 : iastToDevanagari ('o' :: 'ṁ' :: t'') =
          ['ॐ'] ++ iastToDevanagari t'' := iast_step_om t''
      refine assemble ['ॐ'] ['ṁ'] t'' h1 (by simp) 
        (fun c hc => halpha c (by simp [hc])) ?_ ?_
      · rw [h1]
        show devanagariToIAST ('ॐ' :: iastToDevanagari t'') = _
        rw [dev_step_vowel (show devVowel 'ॐ' = some "oṁ" from by decide)]
      · show iastToDevanagari ('o' :: 'ṁ' ::
          devanagariToIAST (iastToDevanagari t'')) = _
        rw [iast_step_om]
        rfl
    · rcases hc2 : iastConsonant2 z w with _ | G
      · rcases hv2 : iastVowel2 z w with _ | V
        · rcases hc1 : iastConsonant1 z with _ | G
          · rcases hv1 : iastVowel1 z with _ | V
            · rcases hsp : iastSpecial z with _ | S
              · -- pass-through character
                have hp := pass_inv z hz hv1 hc1 hsp
                have h1 : iastToDevanagari (z :: w :: t'') =
                    [z] ++ iastToDevanagari (w :: t'') :=
                  iast_step_pass hv1 hc1 hsp t''
                have halr : ∀ c ∈ w :: t'', c ∈ IAST_ALPHABET :=
                  fun c hc => halpha c (by simp [hc])
                obtain ⟨d', s', hds, hcase⟩ :=
                  (IH (w :: t'') le_rfl halr (lastTrans [z] _ h1)).2 w t'' rfl
                refine assemble [z] [] (w :: t'') h1 le_rfl halr ?_ ?_
                · rw [h1]
                  show devanagariToIAST (z :: iastToDevanagari (w :: t'')) = _
                  rw [dev_step_pass hp.1 hp.2.1 hp.2.2.1 hp.2.2.2.1 hp.2.2.2.2]
                  rfl
                · rw [hds]
                  show iastToDevanagari (z :: d' :: s') = _
                  rw [iast_step_pass hv1 hc1 hsp]
                  rfl
              · -- special character
                have hspf := special_inv z hz S (by simp [hsp])
                have h1 : iastToDevanagari (z :: w :: t'') =
                    [S] ++ iastToDevanagari (w :: t'') :=
                  iast_step_sp hv1 hc1 hsp t''
                have halr : ∀ c ∈ w :: t'', c ∈ IAST_ALPHABET :=
                  fun c hc => halpha c (by simp [hc])
                obtain ⟨d', s', hds, hcase⟩ :=
                  (IH (w :: t'') le_rfl halr (lastTrans [S] _ h1)).2 w t'' rfl
                rcases hspf.2.2.2.2 with hnamed | hdig
                · refine assemble [S] [] (w :: t'') h1 le_rfl halr ?_ ?_
                  · rw [h1]
                    show devanagariToIAST
                      (S :: iastToDevanagari (w :: t'')) = _
                    rw [dev_step_special hspf.1 hspf.2.1 hspf.2.2.1
                      hspf.2.2.2.1 hnamed]
                  · rw [hds]
                    show iastToDevanagari (z :: d' :: s') = _
                    rw [iast_step_sp hv1 hc1 hsp]
                    rfl
                · refine assembleG [S] [S] (w :: t'') h1 le_rfl halr ?_ ?_
                    ⟨S, [], rfl, Or.inr ⟨hdig.1, hdig.2.1⟩⟩
                  · rw [h1]
                    show devanagariToIAST
                      (S :: iastToDevanagari (w :: t'')) = _
                    rw [dev_step_pass hspf.1 hspf.2.1 hspf.2.2.1
                      hspf.2.2.2.1 hdig.2.2.1]
                    rfl
                  · rw [hds]
                    show iastToDevanagari (S :: d' :: s') = _
                    rw [iast_step_pass hdig.2.2.2.1 hdig.2.2.2.2.1
                      hdig.2.2.2.2.2]
                    rfl
            · -- single-letter vowel
              have h1 : iastToDevanagari (z :: w :: t'') =
                  [V] ++ iastToDevanagari (w :: t'') :=
                iast_step_v1 hv1 hv2 t''
              have halr : ∀ c ∈ w :: t'', c ∈ IAST_ALPHABET :=
                fun c hc => halpha c (by simp [hc])
              obtain ⟨d', s', hds, hcase⟩ :=
                (IH (w :: t'') le_rfl halr (lastTrans [V] _ h1)).2 w t'' rfl
              refine assemble [V] [] (w :: t'') h1 le_rfl halr ?_ ?_
              · rw [h1]
                by_cases hzm : z = 'ṁ'
                · subst hzm
                  have hV : V = 'ं' := by
                    rw [show iastVowel1 'ṁ' = some 'ं' from rfl] at hv1
                    exact (Option.some.inj hv1).symm
                  subst hV
                  show devanagariToIAST ('ं' :: iastToDevanagari (w :: t'')) = _
                  rw [dev_step_special (by decide) (by decide) (by decide)
                    (by decide) (show devSpecial 'ं' = some "ṁ" from by decide)]
                · show devanagariToIAST (V :: iastToDevanagari (w :: t'')) = _
                  rw [dev_step_vowel (devVowel_of_vowel1 hzm hv1)]
              · rw [hds]
                have hv2d : iastVowel2 z d' = none := by
                  rcases hcase with heq | ⟨hdig, hdev⟩
                  · rw [heq]; exact hv2
                  · have hne := devDigits_ne d' hdev
                    exact iastVowel2_none_of_snd z hne.1 hne.2.1 hne.2.2.1
                show iastToDevanagari (z :: d' :: s') = _
                rw [iast_step_v1 hv1 hv2d]
                rfl
          · -- single-letter consonant
            by_cases hw : w = 'a'
            · subst hw
              cases t'' with
              | nil =>
                exfalso
                have h1c : iastToDevanagari [z, 'a'] = [G] := by
                  rw [iast_step_c1 hc1 hc2 [],
                    show iastAfterConsonant ['a'] = ([], []) from by decide]
                  rfl
                have hG := hlast G (by rw [h1c]; rfl)
                rw [devConsonant_of_cons1 hc1] at hG
                exact Option.noConfusion hG
              | cons e t3 =>
                rcases hs2 : iastVowelSign2 'a' e with _ | S
                · -- inherent a before a non-diphthong continuation
                  have hei := sign2_a_none_ne_i hs2
                  have heu := sign2_a_none_ne_u hs2
                  have hiu : ∀ (l : List Char) z',
                      (e :: l).head? = some z' → z' ≠ 'i' ∧ z' ≠ 'u' := by
                    intro l z' hz'
                    rw [List.head?_cons] at hz'
                    injection hz' with hz''
                    subst hz''
                    exact ⟨hei, heu⟩
                  have h1 : iastToDevanagari (z :: 'a' :: e :: t3) =
                      [G] ++ iastToDevanagari (e :: t3) := by
                    rw [iast_step_c1 hc1 hc2 (e :: t3),
                      afterCons_inherent (hiu t3)]
                    rfl
                  have halr : ∀ c ∈ e :: t3, c ∈ IAST_ALPHABET :=
                    fun c hc => halpha c (by simp [hc])
                  obtain ⟨hch, hcs, hceq, hcf1, hcf2⟩ :=
                    iast_head_facts e t3 (halpha e (by simp))
                  obtain ⟨d', s', hds, hcase⟩ :=
                    (IH (e :: t3) (by simp) halr (lastTrans [G] _ h1)).2
                      e t3 rfl
                  refine assemble [G] ['a'] (e :: t3) h1 (by simp) halr ?_ ?_
                  · rw [h1, hceq]
                    show devanagariToIAST (G :: hch :: hcs) = _
                    rw [dev_step_cons_bare (devConsonant_of_cons1 hc1)
                      hcf1 hcf2]
                    rfl
                  · rw [hds]
                    have hne : d' ≠ 'i' ∧ d' ≠ 'u' := by
                      rcases hcase with heq | ⟨hdig2, hdev⟩
                      · rw [heq]; exact ⟨hei, heu⟩
                      · have h := devDigits_ne d' hdev
                        exact ⟨h.1, h.2.1⟩
                    show iastToDevanagari (z :: 'a' :: d' :: s') = _
                    rw [iast_step_c1 hc1 hc2 (d' :: s'),
                      afterCons_inherent (head_ne_iu hne.1 hne.2 s')]
                    rfl
                · -- diphthong vowel sign ai or au
                  have h1 : iastToDevanagari (z :: 'a' :: e :: t3) =
                      [G, S] ++ iastToDevanagari t3 := by
                    rw [iast_step_c1 hc1 hc2 (e :: t3), afterCons_sign2 hs2]
                    rfl
                  have halr : ∀ c ∈ t3, c ∈ IAST_ALPHABET :=
                    fun c hc => halpha c (by simp [hc])
                  refine assemble [G, S] ['a', e] t3 h1
                    (by simp only [List.length_cons]; omega) halr ?_ ?_
                  · rw [h1]
                    show devanagariToIAST (G :: S :: iastToDevanagari t3) = _
                    rw [dev_step_cons_sign (devConsonant_of_cons1 hc1)
                      (devVowelSign_of_sign2 hs2)]
                    rfl
                  · show iastToDevanagari (z :: 'a' :: e ::
                      devanagariToIAST (iastToDevanagari t3)) = _
                    rw [iast_step_c1 hc1 hc2, afterCons_sign2 hs2]
                    rfl
            · rcases hs1 : iastVowelSign1 w with _ | S
              · by_cases hcb : isConsonantAheadIAST (w :: t'') ∨
                    isWordBoundaryIAST (some w)
                · -- virama before a consonant or word boundary
                  have h1 : iastToDevanagari (z :: w :: t'') =
                      [G, '्'] ++ iastToDevanagari (w :: t'') := by
                    rw [iast_step_c1 hc1 hc2 t'', afterCons_virama hw hs1 hcb]
                    rfl
                  have halr : ∀ c ∈ w :: t'', c ∈ IAST_ALPHABET :=
                    fun c hc => halpha c (by simp [hc])
                  obtain ⟨d', s', hds, hcase⟩ :=
                    (IH (w :: t'') le_rfl halr (lastTrans [G, '्'] _ h1)).2
                      w t'' rfl
                  have hdw : d' = w := by
                    rcases hcase with heq | ⟨hdig, hdev⟩
                    · exact heq
                    · exfalso
                      have hfacts := asciiDigits_no_cons w hdig
                      rcases hcb with hl | hr
                      · have hc := consAhead_cons1 hl
                        rw [hfacts.1] at hc
                        exact absurd hc (by decide)
                      · rw [hfacts.2] at hr
                        exact absurd hr (by decide)
                  have hcb' : isConsonantAheadIAST (d' :: s') ∨
                      isWordBoundaryIAST (some d') := by
                    rw [hdw]
                    rcases hcb with hl | hr
                    · exact Or.inl (consAhead_of_cons1 (consAhead_cons1 hl) s')
                    · exact Or.inr hr
                  have hc2d : iastConsonant2 z d' = none := by
                    rw [hdw]; exact hc2
                  have hwd : d' ≠ 'a' := by rw [hdw]; exact hw
                  have hs1d : iastVowelSign1 d' = none := by
                    rw [hdw]; exact hs1
                  refine assemble [G, '्'] [] (w :: t'') h1 le_rfl halr ?_ ?_
                  · rw [h1]
                    show devanagariToIAST
                      (G :: '्' :: iastToDevanagari (w :: t'')) = _
                    rw [dev_step_cons_virama (devConsonant_of_cons1 hc1)]
                  · rw [hds]
                    show iastToDevanagari (z :: d' :: s') = _
                    rw [iast_step_c1 hc1 hc2d s',
                      afterCons_virama hwd hs1d hcb']
                    rfl
                · -- bare consonant glyph with no virama and no inherent a
                  have hac := afterCons_bare hw hs1 hcb
                  have h1 : iastToDevanagari (z :: w :: t'') =
                      [G] ++ iastToDevanagari (w :: t'') := by
                    rw [iast_step_c1 hc1 hc2 t'', hac]
                    rfl
                  have halr : ∀ c ∈ w :: t'', c ∈ IAST_ALPHABET :=
                    fun c hc => halpha c (by simp [hc])
                  obtain ⟨hch, hcs, hceq, hcf1, hcf2⟩ :=
                    iast_head_facts w t'' (halpha w (by simp))
                  obtain ⟨d', s', hds, hcase⟩ :=
                    (IH (w :: t'') le_rfl halr (lastTrans [G] _ h1)).2
                      w t'' rfl
                  refine assemble [G] ['a'] (w :: t'') h1 le_rfl halr ?_ ?_
                  · rw [h1, hceq]
                    show devanagariToIAST (G :: hch :: hcs) = _
                    rw [dev_step_cons_bare (devConsonant_of_cons1 hc1)
                      hcf1 hcf2]
                    rfl
                  · rw [hds]
                    have hne : d' ≠ 'i' ∧ d' ≠ 'u' := by
                      rcases hcase with heq | ⟨hdig2, hdev⟩
                      · rw [heq]
                        exact ⟨sign1_none_ne_i hs1, sign1_none_ne_u hs1⟩
                      · have h := devDigits_ne d' hdev
                        exact ⟨h.1, h.2.1⟩
                    show iastToDevanagari (z :: 'a' :: d' :: s') = _
                    rw [iast_step_c1 hc1
                      (iastConsonant2_none_of_ne_h z (by decide)) (d' :: s'),
                      afterCons_inherent (head_ne_iu hne.1 hne.2 s')]
                    rfl
              · -- consonant with a one-letter vowel sign
                have h1 : iastToDevanagari (z :: w :: t'') =
                    [G, S] ++ iastToDevanagari t'' := by
                  rw [iast_step_c1 hc1 hc2 t'', afterCons_sign1 hs1 t'']
                  rfl
                have halr : ∀ c ∈ t'', c ∈ IAST_ALPHABET :=
                  fun c hc => halpha c (by simp [hc])
                refine assemble [G, S] [w] t'' h1 (by simp) halr ?_ ?_
                · rw [h1]
                  show devanagariToIAST (G :: S :: iastToDevanagari t'') = _
                  rw [dev_step_cons_sign (devConsonant_of_cons1 hc1)
                    (devVowelSign_of_sign1 hs1)]
                  rfl
                · show iastToDevanagari (z :: w ::
                    devanagariToIAST (iastToDevanagari t'')) = _
                  rw [iast_step_c1 hc1 hc2, afterCons_sign1 hs1]
                  rfl
        · -- two-letter vowel ai, au
          have h1 : iastToDevanagari (z :: w :: t'') =
              [V] ++ iastToDevanagari t'' := iast_step_v2 hv2 t''
          have halr : ∀ c ∈ t'', c ∈ IAST_ALPHABET :=
            fun c hc => halpha c (by simp [hc])
          refine assemble [V] [w] t'' h1 (by simp) halr ?_ ?_
          · rw [h1]
            show devanagariToIAST (V :: iastToDevanagari t'') = _
            rw [dev_step_vowel (devVowel_of_vowel2 hv2)]
          · show iastToDevanagari (z :: w ::
              devanagariToIAST (iastToDevanagari t'')) = _
            rw [iast_step_v2 hv2]
            rfl
      · -- two-letter aspirated consonant
        have hk := devConsonant_of_cons2 hc2
        cases t'' with
        | nil =>
          refine assemble [G, '्'] [w] [] ?_ (by simp) (by simp) ?_ ?_
          · rw [iast_step_c2nil hc2]
            rfl
          · rw [iast_step_c2nil hc2]
            show devanagariToIAST (G :: '्' :: iastToDevanagari []) = _
            rw [dev_step_cons_virama hk]
          · show iastToDevanagari [z, w] = _
            rw [iast_step_c2nil hc2]
            rfl
        | cons d t3 =>
          by_cases hd : d = 'a'
          · subst hd
            cases t3 with
            | nil =>
              exfalso
              have h1c : iastToDevanagari [z, w, 'a'] = [G] := by
                rw [iast_step_c2a hc2 []]
                rfl
              have hG := hlast G (by rw [h1c]; rfl)
              rw [hk] at hG
              exact Option.noConfusion hG
            | cons e t4 =>
              have h1 : iastToDevanagari (z :: w :: 'a' :: e :: t4) =
                  [G] ++ iastToDevanagari (e :: t4) := iast_step_c2a hc2 _
              have halr : ∀ c ∈ e :: t4, c ∈ IAST_ALPHABET :=
                fun c hc => halpha c (by simp [hc])
              obtain ⟨hch, hcs, hceq, hcf1, hcf2⟩ :=
                iast_head_facts e t4 (halpha e (by simp))
              refine assemble [G] [w, 'a'] (e :: t4) h1
                (by simp only [List.length_cons]; omega) halr ?_ ?_
              · rw [h1, hceq]
                show devanagariToIAST (G :: hch :: hcs) = _
                rw [dev_step_cons_bare hk hcf1 hcf2]
                rfl
              · show iastToDevanagari (z :: w :: 'a' ::
                  devanagariToIAST (iastToDevanagari (e :: t4))) = _
                rw [iast_step_c2a hc2]
                rfl
          · rcases hs1 : iastVowelSign1 d with _ | S
            · by_cases hcb : isConsonantAheadIAST (d :: t3) ∨
                  isWordBoundaryIAST (some d)
              · -- aspirate with virama
                have h1 : iastToDevanagari (z :: w :: d :: t3) =
                    [G, '्'] ++ iastToDevanagari (d :: t3) := by
                  rw [iast_step_c2mid hc2 hd t3, afterCons_virama hd hs1 hcb]
                  rfl
                have halr : ∀ c ∈ d :: t3, c ∈ IAST_ALPHABET :=
                  fun c hc => halpha c (by simp [hc])
                obtain ⟨d2, s', hds, hcase⟩ :=
                  (IH (d :: t3) (by simp) halr (lastTrans [G, '्'] _ h1)).2
                    d t3 rfl
                have hdd : d2 = d := by
                  rcases hcase with heq | ⟨hdig, hdev⟩
                  · exact heq
                  · exfalso
                    have hfacts := asciiDigits_no_cons d hdig
                    rcases hcb with hl | hr
                    · have hc := consAhead_cons1 hl
                      rw [hfacts.1] at hc
                      exact absurd hc (by decide)
                    · rw [hfacts.2] at hr
                      exact absurd hr (by decide)
                have hcb' : isConsonantAheadIAST (d2 :: s') ∨
                    isWordBoundaryIAST (some d2) := by
                  rw [hdd]
                  rcases hcb with hl | hr
                  · exact Or.inl (consAhead_of_cons1 (consAhead_cons1 hl) s')
                  · exact Or.inr hr
                have hdd2 : d2 ≠ 'a' := by rw [hdd]; exact hd
                have hs1d : iastVowelSign1 d2 = none := by
                  rw [hdd]; exact hs1
                refine assemble [G, '्'] [w] (d :: t3) h1 (by simp) halr ?_ ?_
                · rw [h1]
                  show devanagariToIAST
                    (G :: '्' :: iastToDevanagari (d :: t3)) = _
                  rw [dev_step_cons_virama hk]
                · rw [hds]
                  show iastToDevanagari (z :: w :: d2 :: s') = _
                  rw [iast_step_c2mid hc2 hdd2 s',
                    afterCons_virama hdd2 hs1d hcb']
                  rfl
              · -- bare aspirate glyph
                have hac := afterCons_bare hd hs1 hcb
                have h1 : iastToDevanagari (z :: w :: d :: t3) =
                    [G] ++ iastToDevanagari (d :: t3) := by
                  rw [iast_step_c2mid hc2 hd t3, hac]
                  rfl
                have halr : ∀ c ∈ d :: t3, c ∈ IAST_ALPHABET :=
                  fun c hc => halpha c (by simp [hc])
                obtain ⟨hch, hcs, hceq, hcf1, hcf2⟩ :=
                  iast_head_facts d t3 (halpha d (by simp))
                refine assemble [G] [w, 'a'] (d :: t3) h1 (by simp) halr ?_ ?_
                · rw [h1, hceq]
                  show devanagariToIAST (G :: hch :: hcs) = _
                  rw [dev_step_cons_bare hk hcf1 hcf2]
                  rfl
                · show iastToDevanagari (z :: w :: 'a' ::
                    devanagariToIAST (iastToDevanagari (d :: t3))) = _
                  rw [iast_step_c2a hc2]
                  rfl
            · -- aspirate with a one-letter vowel sign
              have h1 : iastToDevanagari (z :: w :: d :: t3) =
                  [G, S] ++ iastToDevanagari t3 := by
                rw [iast_step_c2mid hc2 hd t3, afterCons_sign1 hs1 t3]
                rfl
              have halr : ∀ c ∈ t3, c ∈ IAST_ALPHABET :=
                fun c hc => halpha c (by simp [hc])
              refine assemble [G, S] [w, d] t3 h1
                (by simp only [List.length_cons]; omega) halr ?_ ?_
              · rw [h1]
                show devanagariToIAST (G :: S :: iastToDevanagari t3) = _
                rw [dev_step_cons_sign hk (devVowelSign_of_sign1 hs1)]
                rfl
              · show iastToDevanagari (z :: w :: d ::
                  devanagariToIAST (iastToDevanagari t3)) = _
                rw [iast_step_c2mid hc2 hd, afterCons_sign1 hs1]
                rfl

theorem c1_main : ∀ (n : Nat) (t : List Char), t.length ≤ n →
    (∀ c ∈ t, c ∈ IAST_ALPHABET) →
    (∀ gl, (iastToDevanagari t).getLast? = some gl →
      devConsonant gl = none) →
    RT t ∧ HeadId t := by
  intro n
  induction n with
  | zero =>
    intro t hlen _ _
    have ht : t = [] := List.length_eq_zero.mp (Nat.le_zero.mp hlen)
    subst ht
    exact ⟨rfl, fun d t3 h => absurd h (by simp)⟩
  | succ n ihn =>
    intro t hlen halpha hlast
    cases t with
    | nil => exact ⟨rfl, fun d t3 h => absurd h (by simp)⟩
    | cons z rest =>
      refine c1_step z rest (fun r hr halr hlr => ihn r ?_ halr hlr)
        halpha hlast
      simp only [List.length_cons] at hlen
      omega

theorem drop_cons_of_get? : ∀ (l : List Char) (n : Nat) (c : Char),
    l.get? n = some c → l.drop n = c :: l.drop (n + 1) := by
  intro l
  induction l with
  | nil => intro n c h; simp at h
  | cons a l' ihl =>
    intro n c h
    cases n with
    | zero =>
      simp only [List.get?] at h
      injection h with h
      subst h
      rfl
    | succ n =>
      simp only [List.get?] at h
      show l'.drop n = c :: l'.drop (n + 1)
      exact ihl n c h

theorem isVowel_lt {text : List Char} {i : Nat} {v : String}
    (h : isVowel text i = some v) : i < text.length := by
  by_contra hlt
  push_neg at hlt
  unfold isVowel at h
  rw [if_pos hlt] at h
  exact Option.noConfusion h

theorem isVowel_length {text : List Char} {i : Nat} {v : String}
    (h : isVowel text i = some v) : v.length = 1 ∨ v.length = 2 := by
  have hlt := isVowel_lt h
  unfold isVowel at h
  rw [if_neg (not_le.mpr hlt)] at h
  simp only [] at h
  split_ifs at h with h1 h2
  · injection h with h
    subst h
    right
    show ((text.drop i).take 2).length = 2
    simp only [List.length_take, List.length_drop]
    omega
  · injection h with h
    subst h
    left
    show ((text.drop i).take 1).length = 1
    simp only [List.length_take, List.length_drop]
    omega

theorem vowels_first {c : Char} {r : List Char}
    (h : VOWELS.contains (String.mk (c :: r)) = true) :
    c ∈ ['a', 'i', 'u', 'ṛ', 'ḷ', 'ā', 'ī', 'ū', 'ṝ', 'ḹ', 'e', 'o'] := by
  have hmem : String.mk (c :: r) ∈ VOWELS := by simpa using h
  have hh : ∀ s ∈ VOWELS, ∀ c2 ∈ s.data.head?.toList,
      c2 ∈ ['a', 'i', 'u', 'ṛ', 'ḷ', 'ā', 'ī', 'ū', 'ṝ', 'ḹ', 'e', 'o'] := by
    decide
  exact hh _ hmem c (by simp)

theorem isVowel_first {text : List Char} {i : Nat} {v : String}
    (h : isVowel text i = some v) :
    ∃ c, text.get? i = some c ∧
      c ∈ ['a', 'i', 'u', 'ṛ', 'ḷ', 'ā', 'ī', 'ū', 'ṝ', 'ḹ', 'e', 'o'] := by
  have hlt := isVowel_lt h
  have hc : text.get? i = some text[i] := by
    rw [List.get?_eq_getElem?, List.getElem?_eq_getElem hlt]
  refine ⟨text[i], hc, ?_⟩
  unfold isVowel at h
  rw [if_neg (not_le.mpr hlt)] at h
  simp only [] at h
  split_ifs at h with h1 h2
  · have h1' := h1.2
    rw [drop_cons_of_get? text i text[i] hc, List.take_succ_cons] at h1'
    exact vowels_first h1'
  · rw [drop_cons_of_get? text i text[i] hc, List.take_succ_cons] at h2
    exact vowels_first h2

theorem vowel_firsts_facts : ∀ c ∈
    (['a', 'i', 'u', 'ṛ', 'ḷ', 'ā', 'ī', 'ū', 'ṝ', 'ḹ', 'e', 'o'] :
      List Char),
    isSvaraMark c = false ∧ c ≠ 'ṁ' ∧ c ≠ ' ' := by
  decide

theorem skipSvara_stop {text : List Char} {i : Nat} {c : Char} (fuel : Nat)
    (h : text.get? i = some c) (hm : isSvaraMark c = false) :
    skipSvaraMarks text (fuel + 1) i = i := by
  simp only [skipSvaraMarks, h, hm]
  rfl

theorem om_not_preempt {text : List Char} {i : Nat} {v : String}
    (hv : isVowel text i = some v)
    (hsp : text.get? (skipSvaraMarks text (text.length + 1)
      (i + v.length)) = some ' ') :
    ¬(i + 2 < text.length ∧ text.get? i = some 'o' ∧
      text.get? (i + 1) = some 'ṁ' ∧ text.get? (i + 2) = some ' ') := by
  rintro ⟨hlen2, ho, hm, -⟩
  have hlt : i < text.length := isVowel_lt hv
  unfold isVowel at hv
  rw [if_neg (not_le.mpr hlt)] at hv
  simp only [] at hv
  rw [drop_cons_of_get? text i 'o' ho, drop_cons_of_get? text (i + 1) 'ṁ' hm]
    at hv
  simp only [List.take_succ_cons, List.take_zero] at hv
  rw [if_neg (fun hA => absurd hA.2 (by decide)),
    if_pos (by decide : VOWELS.contains (String.mk ['o']) = true)] at hv
  injection hv with hv
  subst hv
  rw [show (String.mk ['o']).length = 1 from rfl] at hsp
  rw [skipSvara_stop text.length hm (by decide)] at hsp
  rw [hm] at hsp
  exact absurd (Option.some.inj hsp) (by decide)

theorem pause_mem_aux (text : List Char) (i : Nat) (v w : String)
    (hv : isVowel text i = some v)
    (hreach : 1 ≤ i → ∀ u ∈ (isVowel text (i - 1)).toList, u.length = 1)
    (hsp : text.get? (skipSvaraMarks text (text.length + 1)
      (i + v.length)) = some ' ')
    (hw : isVowel text (skipSvaraMarks text (text.length + 1)
      (skipSvaraMarks text (text.length + 1) (i + v.length) + 1)) =
      some w) :
    ∀ (fuel j : Nat), j ≤ i → i - j < fuel →
      (⟨skipSvaraMarks text (text.length + 1)
          (skipSvaraMarks text (text.length + 1) (i + v.length) + 1),
        if LONG_VOWELS.contains v ∧ SHORT_VOWELS.contains w then "long"
        else "short"⟩ : Pause) ∈ findAllPausesAux text fuel j := by
  intro fuel
  induction fuel with
  | zero => intro j hj hlt; omega
  | succ fuel ihf =>
    intro j hj hlt
    by_cases hji : j = i
    · subst hji
      obtain ⟨c, hc, hcmem⟩ := isVowel_first hv
      have hcf := vowel_firsts_facts c hcmem
      simp only [findAllPausesAux, hc]
      rw [if_neg (show ¬(isSvaraMark c = true) from by simp [hcf.1])]
      rw [if_neg (fun hA => om_not_preempt hv hsp
        ⟨hA.1, by rw [hc]; exact hA.2.1, hA.2.2.1, hA.2.2.2⟩)]
      simp only [hv]
      rw [if_pos hsp]
      simp only [hw]
      split_ifs with hkind
      all_goals exact List.mem_cons_self _ _
    · have hji' : j < i := lt_of_le_of_ne hj hji
      have hilt : i < text.length := isVowel_lt hv
      rcases hgc : text.get? j with _ | c
      · rw [List.get?_eq_none] at hgc
        omega
      · simp only [findAllPausesAux, hgc]
        by_cases hmark : isSvaraMark c = true
        · simp only [hmark, if_true]
          exact ihf (j + 1) (by omega) (by omega)
        · rw [if_neg hmark]
          by_cases homj : j + 2 < text.length ∧
              (some c : Option Char) = some 'o' ∧
              text.get? (j + 1) = some 'ṁ' ∧ text.get? (j + 2) = some ' '
          · rw [if_pos homj]
            have hj3 : j + 3 ≤ i := by
              by_contra hcon
              obtain ⟨c2, hc2, hmem2⟩ := isVowel_first hv
              have hcf2 := vowel_firsts_facts c2 hmem2
              rcases (by omega : i = j + 1 ∨ i = j + 2) with rfl | rfl
              · rw [homj.2.2.1] at hc2
                exact absurd (Option.some.inj hc2).symm hcf2.2.1
              · rw [homj.2.2.2] at hc2
                exact absurd (Option.some.inj hc2).symm hcf2.2.2
            exact List.mem_cons_of_mem _ (ihf (j + 3) hj3 (by omega))
          · rw [if_neg homj]
            rcases hvj : isVowel text j with _ | u
            · simp only [hvj]
              exact ihf (j + 1) (by omega) (by omega)
            · simp only [hvj]
              have hjlen : j + u.length ≤ i := by
                rcases isVowel_length hvj with h1 | h2
                · omega
                · by_contra hcon
                  have : i = j + 1 := by omega
                  subst this
                  have := hreach (by omega) u (by
                    rw [show j + 1 - 1 = j from by omega, hvj]
                    simp)
                  omega
              have hnext := ihf (j + u.length)  hjlen
                (by
                  rcases isVowel_length hvj with h1 | h2 <;> omega)
              split
              · split
                · exact List.mem_cons_of_mem _ hnext
                · exact hnext
              · exact hnext

/-! Claim theorems. -/

/-- C1 (counterexamples forcing the amendments).  The round trip fails
at three inputs of the claimed alphabet.  At ka the alphasyllabic form is
a single bare consonant glyph, the Latin direction drops the inherent
vowel at the end of the text, and the return direction appends a virama,
so the round trip appends a spurious virama: this forces the amended
hypothesis that the alphasyllabic form not end in a bare consonant glyph.
A lone virama passes to the Latin direction unchanged but is skipped
there, so it is lost: this forces dropping the virama from the covered
alphabet.  The spelling o plus dotted-under m maps to the vowel glyph
plus anusvara, which the Latin direction renders oṁ and the return
direction contracts to the om ligature: this forces dropping the
dotted-under m (its dotted-over spelling is covered). -/
theorem roundtrip_ka_behavior :
    (iastToDevanagari ['k', 'a'] = ['क'] ∧
     devanagariToIAST ['क'] = ['k'] ∧
     iastToDevanagari (devanagariToIAST (iastToDevanagari ['k', 'a'])) =
       ['क', '्'] ∧
     iastToDevanagari (devanagariToIAST (iastToDevanagari ['k', 'a'])) ≠
       iastToDevanagari ['k', 'a']) ∧
    iastToDevanagari (devanagariToIAST (iastToDevanagari ['्'])) ≠
      iastToDevanagari ['्'] ∧
    iastToDevanagari (devanagariToIAST (iastToDevanagari ['o', 'ṃ'])) ≠
      iastToDevanagari ['o', 'ṃ'] := by decide

/-- C1 (amended).  Round-trip stability of the script converter on
standard Latin-diacritic text: for every text over the IAST alphabet (the
single-letter consonants, the vowel letters, the dotted-over anusvara and
the visarga, the avagraha apostrophe, the space, the fixed punctuation
set and the digits) whose alphasyllabic form does not end in a bare
consonant glyph, converting the alphasyllabic form to Latin diacritic and
back reproduces it exactly: iastToDevanagari (devanagariToIAST
(iastToDevanagari t)) = iastToDevanagari t.  The hypothesis on the final
glyph is forced by the ka conjunct of the counterexample theorem; a text
ending in a vowel, anusvara, visarga, punctuation, a digit or an explicit
final virama satisfies it. -/
theorem iast_roundtrip (t : List Char)
    (halpha : ∀ c ∈ t, c ∈ IAST_ALPHABET)
    (hlast : ∀ gl ∈ (iastToDevanagari t).getLast?.toList,
      devConsonant gl = none) :
    iastToDevanagari (devanagariToIAST (iastToDevanagari t)) =
      iastToDevanagari t :=
  (c1_main t.length t le_rfl halpha
    (fun gl hg => hlast gl (by rw [hg]; simp))).1

/-- Witness for C1 (amended) at the text rāmaḥ 42 kṛṣṇa iti, which
contains conjuncts, a visarga, long vowels, digits and spaces and ends in
a vowel. -/
theorem iast_roundtrip_witness :
    iastToDevanagari (devanagariToIAST
      (iastToDevanagari ("rāmaḥ 42 kṛṣṇa iti".data))) =
      iastToDevanagari ("rāmaḥ 42 kṛṣṇa iti".data) :=
  iast_roundtrip _ (by decide) (by decide)

/-- C2 (counterexample).  The conjunct written consonant, virama,
consonant is not reproduced by the round trip: the return direction puts a
virama after the final consonant of the text, so ka-virama-ta comes back
as ka-virama-ta-virama. -/
theorem conjunct_roundtrip_kta_counterexample :
    devanagariToIAST ['क', '्', 'त'] = ['k', 't'] ∧
    iastToDevanagari ['k', 't'] = ['क', '्', 'त', '्'] ∧
    iastToDevanagari (devanagariToIAST ['क', '्', 'त']) ≠
      ['क', '्', 'त'] := by decide

set_option maxHeartbeats 2000000 in
/-- C2 (amended).  A two-consonant conjunct written with the virama after
each consonant is reproduced exactly by converting to Latin diacritic and
back, and no inherent vowel is introduced, for every pair of consonant
glyphs except the two failure families forced by the counterexamples: the
retroflex la glyph (whose Latin letter collides with the vocalic l vowel
and is read back as a vowel), and an unaspirated stop followed by the
glyph for h (whose Latin letters concatenate to an aspirate digraph and
are read back as one aspirated consonant). -/
theorem conjunct_roundtrip_with_final_virama :
    ∀ c1 ∈ DEV_CONSONANT_GLYPHS, ∀ c2 ∈ DEV_CONSONANT_GLYPHS,
      c1 ≠ 'ळ' → c2 ≠ 'ळ' →
      ¬(c2 = 'ह' ∧ c1 ∈ ['क', 'ग', 'च', 'ज', 'ट', 'ड', 'त', 'द', 'प', 'ब']) →
      iastToDevanagari (devanagariToIAST [c1, '्', c2, '्']) =
        [c1, '्', c2, '्'] := by decide

/-- Witness for C2 (amended) at the pair ka, ta. -/
theorem conjunct_roundtrip_with_final_virama_witness :
    'क' ∈ DEV_CONSONANT_GLYPHS ∧ 'त' ∈ DEV_CONSONANT_GLYPHS ∧
    iastToDevanagari (devanagariToIAST ['क', '्', 'त', '्']) =
      ['क', '्', 'त', '्'] :=
  ⟨by decide, by decide,
    conjunct_roundtrip_with_final_virama 'क' (by decide) 'त' (by decide)
      (by decide) (by decide) (by decide)⟩

/-- C3 (failing input).  In the text ark ka the consonant cluster r, k
crosses the space and the consonant unit directly after the space equals
the last consonant unit before the space (both are k, at codepoint
positions 2 and 4), yet findAllHoldings places the holding at position 4,
the first consonant of the second word, not at position 2: the source
compares the consonant after the space against the first consonant of the
cluster, not against the last consonant before the space. -/
theorem dvirvacana_ark_ka_behavior :
    findAllHoldings "ark ka".data = [⟨4, 1, "short", some 5⟩] ∧
    isConsonant "ark ka".data 2 = some "k" ∧
    isConsonant "ark ka".data 4 = some "k" ∧
    ∀ h ∈ findAllHoldings "ark ka".data, h.position ≠ 2 := by decide

/-- C4 (counterexample).  The text rama with long middle a followed by iti
ends its first word in the short vowel a, so the pause the source emits
right after the space is short, not long as claimed. -/
theorem rama_iti_pause_counterexample :
    findAllPauses "rāma iti".data = [⟨5, "short"⟩] ∧
    findAllPauses "rāma iti".data ≠ [⟨5, "long"⟩] := by decide

/-- C4 (amended).  Both example texts yield exactly one short pause right
after the space, because in each the vowel immediately before the space is
the short a; a text whose first word really ends in a long vowel, such as
rama with final long a, yields the long pause at the same position. -/
theorem sandhi_pause_examples :
    findAllPauses "rāma iti".data = [⟨5, "short"⟩] ∧
    findAllPauses "nara iti".data = [⟨5, "short"⟩] ∧
    findAllPauses "ramā iti".data = [⟨5, "long"⟩] := by decide

/-- C5 (counterexample).  A long vowel followed by exactly one whitespace
character (a tab) followed by a short vowel satisfies every condition of
the claim, yet findAllPauses emits nothing: the source compares the
character after the vowel against the space character only, not against
the whitespace class. -/
theorem tab_hiatus_counterexample :
    isVowel ['ā', '\t', 'i'] 0 = some "ā" ∧
    jsWhitespace '\t' = true ∧
    isVowel ['ā', '\t', 'i'] 2 = some "i" ∧
    LONG_VOWELS.contains "ā" = true ∧
    SHORT_VOWELS.contains "i" = true ∧
    findAllPauses ['ā', '\t', 'i'] = [] := by decide

/-- C5 (amended).  The general sandhi-hiatus rule of findAllPauses, for
every input text and position: whenever the scan reads a vowel unit at a
position (the two-character probe first, so the unit must not be the
second half of a longer unit starting one position earlier, which is what
the hypothesis on the preceding position states), and the character after
the unit, skipping tone marks, is the space character, and the character
after that space, skipping tone marks, is again a vowel unit, then
findAllPauses returns a pause positioned on that second vowel (right
after the space and any intervening tone marks), of kind long if the
first vowel is long and the second short, and of kind short otherwise.
Only the literal space character triggers the rule; the tab
counterexample shows every other whitespace character does not. -/
theorem vowel_space_vowel_pause (text : List Char) (i : Nat) (v w : String)
    (hv : isVowel text i = some v)
    (hreach : 1 ≤ i → ∀ u ∈ (isVowel text (i - 1)).toList, u.length = 1)
    (hsp : text.get? (skipSvaraMarks text (text.length + 1)
      (i + v.length)) = some ' ')
    (hw : isVowel text (skipSvaraMarks text (text.length + 1)
      (skipSvaraMarks text (text.length + 1) (i + v.length) + 1)) =
      some w) :
    (⟨skipSvaraMarks text (text.length + 1)
        (skipSvaraMarks text (text.length + 1) (i + v.length) + 1),
      if LONG_VOWELS.contains v ∧ SHORT_VOWELS.contains w then "long"
      else "short"⟩ : Pause) ∈ findAllPauses text :=
  pause_mem_aux text i v w hv hreach hsp hw (text.length + 1) 0
    (Nat.zero_le i) (by have := isVowel_lt hv; omega)

/-- Witness for C5 (amended): the text k, a-macron, combining anudatta,
space, i, t, i — a vowel hiatus with surrounding consonant context and a
tone mark between the first vowel and the space — receives the long pause
right after the space, at the position of the second vowel. -/
theorem vowel_space_vowel_pause_witness :
    (⟨4, "long"⟩ : Pause) ∈ findAllPauses ['k', 'ā', '̱', ' ', 'i', 't', 'i'] :=
  vowel_space_vowel_pause ['k', 'ā', '̱', ' ', 'i', 't', 'i'] 1 "ā" "i"
    (by decide) (by decide) (by decide) (by decide)

/-- C6 (failing input).  Inserting a tone mark inside the qualifying
cluster k, t of the text akta removes the holding entirely instead of
leaving its kind and placement unchanged: findHoldingPosition measures the
cluster with the countMarks flag false, so the tone mark terminates the
length scan and the cluster no longer reaches the threshold. -/
theorem svara_mark_breaks_holding :
    findAllHoldings "akta".data = [⟨1, 1, "short", none⟩] ∧
    isSvaraMark '̱' = true ∧
    findAllHoldings ['a', 'k', '̱', 't', 'a'] = [] := by decide

/-- Helper for C7: a position whose cluster measure is at most one yields
the empty holding, by the guard at the top of findHoldingPosition. -/
theorem findHoldingPosition_eq_default {text : List Char} {i : Nat}
    (h : findSamyuktaLength text i false ≤ 1) :
    findHoldingPosition text i = ⟨0, 0, "", none⟩ := by
  cases hc : isConsonant text i with
  | none => simp [findHoldingPosition, hc]
  | some consonant => simp [findHoldingPosition, hc, h]

/-- Helper for C7: when every position of the text has cluster measure at
most one, the holdings scan emits nothing, whatever the fuel and the
start index. -/
theorem findAllHoldingsAux_nil (text : List Char)
    (H : ∀ i, i < text.length → findSamyuktaLength text i false ≤ 1) :
    ∀ fuel i, findAllHoldingsAux text fuel i = [] := by
  intro fuel
  induction fuel with
  | zero => intro i; rfl
  | succ n ih =>
    intro i
    unfold findAllHoldingsAux
    cases hg : text.get? i with
    | none => rfl
    | some c =>
      have hi : i < text.length := by
        by_contra hlt
        rw [List.get?_eq_none.mpr (by omega)] at hg
        exact Option.noConfusion hg
      by_cases hbar : c = '|'
      · simp [hbar, ih]
      · cases hc : isConsonant text i with
        | none => simp [hbar, hc, ih]
        | some consonant =>
          simp [hbar, hc, ih, findHoldingPosition_eq_default (H i hi)]

/-- C7.  The holding locator never annotates a run of exactly one
consonant: a position whose cluster measure is at most one produces the
empty holding, and a text all of whose positions have cluster measure at
most one receives no annotation at all. -/
theorem cluster_threshold :
    (∀ (text : List Char) (i : Nat), findSamyuktaLength text i false ≤ 1 →
        findHoldingPosition text i = ⟨0, 0, "", none⟩) ∧
    (∀ text : List Char,
        (∀ i, i < text.length → findSamyuktaLength text i false ≤ 1) →
        findAllHoldings text = []) :=
  ⟨fun _ _ h => findHoldingPosition_eq_default h,
   fun text H => findAllHoldingsAux_nil text H _ _⟩

/-- Witness for C7 at the text ka ta, whose consonants are all isolated. -/
theorem cluster_threshold_witness :
    (∀ i, i < ("ka ta".data : List Char).length →
        findSamyuktaLength "ka ta".data i false ≤ 1) ∧
    findAllHoldings "ka ta".data = [] :=
  ⟨by decide, cluster_threshold.2 "ka ta".data (by decide)⟩

/-- Helper for C10: every holding emitted by the scan satisfies the push
guard of the source, whatever the fuel and the start index. -/
theorem findAllHoldingsAux_position_pos (text : List Char) :
    ∀ fuel i h, h ∈ findAllHoldingsAux text fuel i →
      1 ≤ h.position ∧ 1 ≤ h.length := by
  intro fuel
  induction fuel with
  | zero => intro i h hm; simp [findAllHoldingsAux] at hm
  | succ n ih =>
    intro i h hm
    unfold findAllHoldingsAux at hm
    split at hm
    · exact absurd hm (List.not_mem_nil h)
    · split at hm
      · exact ih _ _ hm
      · split at hm
        · dsimp only at hm
          split at hm
          · rcases List.mem_cons.mp hm with he | hmem
            · rename_i hguard
              subst he
              exact ⟨hguard.1, hguard.2⟩
            · exact ih _ _ hmem
          · exact ih _ _ hm
        · exact ih _ _ hm

/-- C10.  Every holding returned by findAllHoldings has position at least
one and length at least one, so a span at position zero is never
returned and a qualifying cluster starting at the very first codepoint of
the text is never annotated. -/
theorem holding_position_positive :
    ∀ (text : List Char) (h : Holding), h ∈ findAllHoldings text →
      1 ≤ h.position ∧ 1 ≤ h.length :=
  fun text h hm => findAllHoldingsAux_position_pos text _ _ h hm

/-- Witness for C10 at the text akta and its unique holding. -/
theorem holding_position_positive_witness :
    (⟨1, 1, "short", none⟩ : Holding) ∈ findAllHoldings "akta".data ∧
    1 ≤ (⟨1, 1, "short", none⟩ : Holding).position ∧
    1 ≤ (⟨1, 1, "short", none⟩ : Holding).length :=
  ⟨by decide,
    holding_position_positive "akta".data ⟨1, 1, "short", none⟩ (by decide)⟩

/-- C9.  A character recognized by no lookup table of the respective
converter is copied to the output unchanged, in both directions; the
converters never drop or reject unrecognized input. -/
theorem unrecognized_passthrough :
    ∀ (c : Char) (t : List Char),
      (devUnrecognized c →
        devanagariToIAST (c :: t) = c :: devanagariToIAST t) ∧
      (iastUnrecognized c →
        iastToDevanagari (c :: t) = c :: iastToDevanagari t) := by
  intro c t
  constructor
  · rintro ⟨hv, hvs, hc, hs, hvir⟩
    cases t with
    | nil =>
      simp [devanagariToIAST, devanagariToIASTAux, hv, hc, hvs, hvir, hs]
    | cons d rest =>
      simp [devanagariToIAST, devanagariToIASTAux, hv, hc, hvs, hvir, hs]
  · rintro ⟨hv1, hvs1, hc1, hs1⟩
    cases t with
    | nil => simp [iastToDevanagari, iastToDevanagariAux, hc1, hv1, hs1]
    | cons b rest =>
      have ho : ¬(c = 'o' ∧ b = 'ṁ') := by
        rintro ⟨rfl, -⟩; exact absurd hv1 (by decide)
      simp [iastToDevanagari, iastToDevanagariAux, ho,
        iastConsonant2_eq_none b hc1, iastVowel2_eq_none b hv1,
        hc1, hv1, hs1]

/-- Witness for C9 at the letter x, which no table recognizes. -/
theorem unrecognized_passthrough_witness :
    devUnrecognized 'x' ∧ iastUnrecognized 'x' ∧
    devanagariToIAST ['x', 'क'] = 'x' :: devanagariToIAST ['क'] ∧
    iastToDevanagari ['x', 'k'] = 'x' :: iastToDevanagari ['k'] :=
  ⟨by decide, by decide,
    (unrecognized_passthrough 'x' ['क']).1 (by decide),
    (unrecognized_passthrough 'x' ['k']).2 (by decide)⟩

/-- C8 (counterexample).  The normalizer is not idempotent: in the text
open-paren g close-paren open-paren g-with-anudatta close-paren anusvara-m,
the first pass rewrites the second parenthesized idiom to the bare
anusvara letter, which creates the idiom open-paren g close-paren
anusvara-m; that idiom is only rewritten by an earlier rule, so a second
pass contracts the text further. -/
theorem preProcess_not_idempotent_counterexample :
    preProcessRawText
        (preProcessRawText ['(', 'g', ')', '(', 'g', '̱', ')', 'ṁ']) ≠
      preProcessRawText ['(', 'g', ')', '(', 'g', '̱', ')', 'ṁ'] := by decide

/-- A single-character global replacement is the pointwise map of the
corresponding rule, given sufficient fuel. -/
theorem replaceAllAux_single (a b : Char) :
    ∀ (fuel : Nat) (t : List Char), t.length ≤ fuel →
      replaceAllAux [a] [b] fuel t = t.map (charRule a b) := by
  intro fuel
  induction fuel with
  | zero =>
    intro t hle
    have ht : t = [] := List.length_eq_zero.mp (by omega)
    subst ht
    rfl
  | succ n ih =>
    intro t hle
    cases t with
    | nil => rfl
    | cons c rest =>
      unfold replaceAllAux
      by_cases h : a = c
      · subst h
        simp [charRule, List.take, ih rest (by simp at hle; omega)]
      · have hne : ¬([a] = (c :: rest).take 1) := by simp [List.take, h]
        simp only [List.length_singleton, hne, if_neg]
        simp [charRule, Ne.symm h, ih rest (by simp at hle; omega)]

/-- A single-character global replacement is the pointwise map of the
corresponding rule. -/
theorem replaceAll_single (a b : Char) (t : List Char) :
    replaceAll [a] [b] t = t.map (charRule a b) :=
  replaceAllAux_single a b t.length t (Nat.le_refl _)

/-- A global replacement whose pattern starts with the open parenthesis
leaves every text without that character unchanged, given any fuel. -/
theorem replaceAllAux_skip (pat rep : List Char)
    (hp : pat.head? = some '(') :
    ∀ (fuel : Nat) (t : List Char), '(' ∉ t →
      replaceAllAux pat rep fuel t = t := by
  intro fuel
  induction fuel with
  | zero => intro t _; rfl
  | succ n ih =>
    intro t ht
    cases t with
    | nil => rfl
    | cons c rest =>
      unfold replaceAllAux
      have hne : ¬(pat = (c :: rest).take pat.length) := by
        intro e
        cases hpat : pat with
        | nil => rw [hpat] at hp; exact Option.noConfusion hp
        | cons p ps =>
          rw [hpat] at hp e
          have hpc : p = '(' := by simpa using hp
          rw [List.length_cons, List.take_succ_cons] at e
          have : c = '(' := hpc ▸ (List.cons.injEq _ _ _ _ ▸ e).1.symm
          exact ht (this ▸ List.mem_cons_self c rest)
      rw [if_neg hne]
      rw [ih rest (fun hm => ht (List.mem_cons_of_mem c hm))]

/-- A global replacement whose pattern starts with the open parenthesis
leaves every text without that character unchanged. -/
theorem replaceAll_skip (pat rep : List Char) (hp : pat.head? = some '(')
    (t : List Char) (ht : '(' ∉ t) : replaceAll pat rep t = t :=
  replaceAllAux_skip pat rep hp t.length t ht

/-- A rule whose replacement is not the open parenthesis never produces
that character from another character. -/
theorem if_char_ne_paren (a b : Char) (hb : b ≠ '(') :
    ∀ c, c ≠ '(' → charRule a b c ≠ '(' := by
  intro c hc
  unfold charRule
  split_ifs
  · exact hb
  · exact hc

/-- Mapping a function that never produces the open parenthesis from
another character preserves freedom from that character. -/
theorem not_mem_map_paren {f : Char → Char}
    (hf : ∀ c, c ≠ '(' → f c ≠ '(') {s : List Char} (hs : '(' ∉ s) :
    '(' ∉ s.map f := by
  intro hmem
  rcases List.mem_map.mp hmem with ⟨c, hcs, hfc⟩
  exact hf c (fun e => hs (e ▸ hcs)) hfc

/-- The ten canonicalizations preserve freedom from the parenthesis. -/
theorem canonMaps_paren_free (s : List Char) (hs : '(' ∉ s) :
    '(' ∉ canonMaps s := by
  unfold canonMaps
  repeat
    refine not_mem_map_paren (if_char_ne_paren _ _ (by decide)) ?_
  exact hs

/-- On a text without the open parenthesis, the four parenthesized-idiom
replacements never fire, so the normalizer is exactly the ten
single-character canonicalizations. -/
theorem ppr_paren_free (s : List Char) (hs : '(' ∉ s) :
    preProcessRawText s = canonMaps s := by
  unfold preProcessRawText
  simp only [replaceAll_single]
  have hp := canonMaps_paren_free s hs
  unfold canonMaps at hp ⊢
  rw [replaceAll_skip ['(', 'g', ')', 'm'] ['ṁ'] rfl _ hp,
    replaceAll_skip ['(', 'g', ')', 'ṁ'] ['ṁ'] rfl _ hp,
    replaceAll_skip ['(', 'g', '̱', ')', 'ṁ'] ['ṁ'] rfl _ hp,
    replaceAll_skip ['(', 'g', '̱', ')', 'm'] ['ṁ'] rfl _ hp]

/-- The ten canonicalizations are idempotent: every output character of
every rule is a fixed point of all ten rules. -/
theorem canonMaps_idem (t : List Char) :
    canonMaps (canonMaps t) = canonMaps t := by
  unfold canonMaps
  simp only [List.map_map]
  refine List.map_congr_left ?_
  intro c _
  simp only [Function.comp]
  by_cases h1 : c = '॑'
  · subst h1; decide
  by_cases h2 : c = '॒'
  · subst h2; decide
  by_cases h3 : c = '̲'
  · subst h3; decide
  by_cases h4 : c = '̠'
  · subst h4; decide
  by_cases h5 : c = '̡'
  · subst h5; decide
  by_cases h6 : c = '᳚'
  · subst h6; decide
  by_cases h7 : c = '́'
  · subst h7; decide
  by_cases h8 : c = 'ṃ'
  · subst h8; decide
  by_cases h9 : c = 'ō'
  · subst h9; decide
  by_cases h10 : c = 'ē'
  · subst h10; decide
  simp [charRule, h1, h2, h3, h4, h5, h6, h7, h8, h9, h10]

/-- C8 (amended).  The normalizer is idempotent on every text that
contains no open parenthesis, the character that starts each of the four
parenthesized legacy idioms: on such texts it acts as the ten pointwise
character canonicalizations, whose outputs are fixed points of all the
rules. -/
theorem preProcess_idempotent_no_paren :
    ∀ t : List Char, '(' ∉ t →
      preProcessRawText (preProcessRawText t) = preProcessRawText t := by
  intro t ht
  rw [ppr_paren_free t ht,
    ppr_paren_free (canonMaps t) (canonMaps_paren_free t ht),
    canonMaps_idem]

/-- Witness for C8 (amended) at a parenthesis-free text. -/
theorem preProcess_idempotent_no_paren_witness :
    '(' ∉ ("śrī rāma".data : List Char) ∧
    preProcessRawText (preProcessRawText "śrī rāma".data) =
      preProcessRawText "śrī rāma".data :=
  ⟨by decide, preProcess_idempotent_no_paren "śrī rāma".data (by decide)⟩
